import Mathlib

/-!
Verification of the soap-proxy SOAP/XML gateway (package soapproxy).

The development shallowly embeds the parts of the Go source that the
claims are about:

* an XML token model `XTok` shared by the token-stream algorithms
  (`FilterEmptyTags`, the streaming merge encoder);
* `filterEmptyTags`, the token-level transcription of `FilterEmptyTags`;
* `encodeResponse`, the streaming merge encoder with its `sliceSaver`
  spill buffers (with a resource trace for the cleanup invariant);
* the WSDL annotation-store construction of `NewSOAPHandler` and the
  `annotation` lookup;
* `encodeSoapFault`, the fault/error mapper;
* a character-level model of `TrimInput` together with the pieces of
  Go `encoding/xml` it relies on (`nextStart`, `Skip`, `InputOffset`);
* the outbound retrying client deadline rule of `SOAPCallWithHeaderClient`;
* the end-of-file special case of `DecodeRequest`;
* the tee/replay body plumbing of `mayFilterEmptyTags`.

Go machine integers appear only as durations; they are modelled as
`Int` nanoseconds (no overflow occurs in the ranges used).
-/

namespace Soapproxy

/-! ## XML token model

`XTok` models the tokens of Go `encoding/xml`: `start`/`stop` are
`StartElement`/`EndElement` (attributes and namespaces are dropped;
no claim depends on them), `txt` is `CharData`, `misc` stands for the
`Comment`, `Directive` and `ProcInst` tokens, which the code under
verification always treats alike. -/
inductive XTok where
  | start (name : String)
  | stop (name : String)
  | txt (s : String)
  | misc (s : String)
deriving DecidableEq, Repr, Inhabited

/-- Well-formedness checker for a token list: a stack of open element
names is maintained; `txt`/`misc` are transparent; a `stop` must match
the innermost open `start`.  `some stk` is the resulting stack. -/
def chkStack : List String → List XTok → Option (List String)
  | stk, [] => some stk
  | stk, XTok.start t :: rest => chkStack (t :: stk) rest
  | stk, XTok.txt _ :: rest => chkStack stk rest
  | stk, XTok.misc _ :: rest => chkStack stk rest
  | s :: stk, XTok.stop t :: rest => if t = s then chkStack stk rest else none
  | [], XTok.stop _ :: _ => none

/-- A token list is a single well-formed tree fragment when the checker
consumes it from the empty stack back to the empty stack. -/
def wellFormed (ts : List XTok) : Bool :=
  chkStack [] ts = some []

theorem chkStack_append (a b : List XTok) :
    ∀ stk, chkStack stk (a ++ b) = (chkStack stk a).bind (fun s => chkStack s b) := by
  induction a with
  | nil => intro stk; simp [chkStack]
  | cons t rest ih =>
    intro stk
    match t, stk with
    | XTok.start u, stk => simpa [chkStack] using ih (u :: stk)
    | XTok.txt s, stk => simpa [chkStack] using ih stk
    | XTok.misc s, stk => simpa [chkStack] using ih stk
    | XTok.stop u, [] => simp [chkStack]
    | XTok.stop u, s :: stk =>
      by_cases h : u = s
      · simpa [chkStack, h] using ih stk
      · simp [chkStack, h]

/-- Processing a balanced fragment leaves any ambient stack unchanged:
weakening of `chkStack` by a deeper ambient stack. -/
theorem chkStack_frame (e : List XTok) :
    ∀ u v w, chkStack u e = some v → chkStack (u ++ w) e = some (v ++ w) := by
  induction e with
  | nil =>
    intro u v w h
    simp only [chkStack] at h
    cases h; simp [chkStack]
  | cons t rest ih =>
    intro u v w h
    match t, u with
    | XTok.start s, u =>
      simp only [chkStack] at h ⊢
      exact ih (s :: u) v w h
    | XTok.txt s, u =>
      simp only [chkStack] at h ⊢
      exact ih u v w h
    | XTok.misc s, u =>
      simp only [chkStack] at h ⊢
      exact ih u v w h
    | XTok.stop s, [] => simp [chkStack] at h
    | XTok.stop s, x :: u =>
      simp only [chkStack] at h ⊢
      by_cases hx : s = x
      · simp only [hx, if_pos rfl] at h ⊢
        exact ih u v w h
      · simp [hx] at h

theorem chkStack_balanced_frame (e : List XTok) (h : chkStack [] e = some []) :
    ∀ s, chkStack s e = some s := by
  intro s
  simpa using chkStack_frame e [] [] s h

/-! ## C2: `FilterEmptyTags` (src/unnamed/part_010 lines 1787-1847)

The Go function tokenizes the input, keeps a pending list `unwritten`
of tokens not yet emitted, and re-encodes:
* `Comment`/`Directive`/`ProcInst` are emitted immediately (without
  flushing `unwritten`);
* a `StartElement` flushes `unwritten` and becomes the new pending token;
* an `EndElement` whose pending predecessor is a `StartElement` is
  dropped together with it (the empty element is removed); otherwise
  `unwritten` is flushed and the end tag emitted;
* `CharData` is emitted (flushing a pending start first); it is queued
  only when the last pending token is not a start;
* at end of input the pending tokens are flushed.

`filterGo` transcribes the loop with the `unwritten` list explicit;
emitted tokens are returned in order. -/

def filterGo (unwritten : List XTok) : List XTok → List XTok
  | [] => unwritten
  | XTok.misc s :: rest => XTok.misc s :: filterGo unwritten rest
  | XTok.start t :: rest => unwritten ++ filterGo [XTok.start t] rest
  | XTok.stop t :: rest =>
      match unwritten.getLast? with
      | some (XTok.start _) => filterGo unwritten.dropLast rest
      | _ => unwritten ++ XTok.stop t :: filterGo [] rest
  | XTok.txt s :: rest =>
      match unwritten.getLast? with
      | none => XTok.txt s :: filterGo [] rest
      | some (XTok.start _) => unwritten ++ XTok.txt s :: filterGo [] rest
      | some _ => filterGo (unwritten ++ [XTok.txt s]) rest

/-- `FilterEmptyTags` at the token level: run the loop with an empty
pending list (the final flush is the `[]` case of `filterGo`). -/
def filterEmptyTags (input : List XTok) : List XTok :=
  filterGo [] input

/-- The character data carried by a token list, in order. -/
def textsOf (ts : List XTok) : List String :=
  ts.filterMap fun t =>
    match t with
    | XTok.txt s => some s
    | _ => none

theorem textsOf_append (a b : List XTok) : textsOf (a ++ b) = textsOf a ++ textsOf b := by
  simp [textsOf]

theorem textsOf_dropLast_of_getLast_start (u : List XTok) :
    ∀ s, u.getLast? = some (XTok.start s) → textsOf u.dropLast = textsOf u := by
  induction u with
  | nil => intro s h; simp at h
  | cons a t ih =>
    intro s h
    cases t with
    | nil =>
      simp only [List.getLast?_singleton, Option.some.injEq] at h
      subst h
      simp [textsOf]
    | cons b t2 =>
      rw [List.getLast?_cons_cons] at h
      have := ih s h
      simp only [List.dropLast_cons₂]
      simp only [textsOf, List.filterMap_cons] at this ⊢
      cases a with
      | txt v => simp [this]
      | start n => simpa using this
      | stop n => simpa using this
      | misc v => simpa using this

/-- `FilterEmptyTags` never drops, reorders or edits character data:
the character data of the output is exactly that of the input. -/
theorem textsOf_filterGo (ts : List XTok) :
    ∀ u, textsOf (filterGo u ts) = textsOf u ++ textsOf ts := by
  induction ts with
  | nil => intro u; simp [filterGo, textsOf]
  | cons c rest ih =>
    intro u
    cases c with
    | misc s =>
      simp only [filterGo, textsOf, List.filterMap_cons]
      simpa [textsOf] using ih u
    | start t =>
      simp only [filterGo, textsOf_append, ih]
      simp [textsOf]
    | stop t =>
      have ih0 : textsOf (filterGo [] rest) = textsOf rest := by
        simpa [textsOf] using ih ([] : List XTok)
      simp only [filterGo]
      rcases hu : u.getLast? with _ | ⟨tok⟩
      · simp only [textsOf_append, textsOf, List.filterMap_cons]
        simpa [textsOf] using ih0
      · cases tok with
        | start n =>
          rw [ih u.dropLast, textsOf_dropLast_of_getLast_start u n hu]
          simp [textsOf]
        | stop n =>
          simp only [textsOf_append, textsOf, List.filterMap_cons]
          simpa [textsOf] using ih0
        | txt v =>
          simp only [textsOf_append, textsOf, List.filterMap_cons]
          simpa [textsOf] using ih0
        | misc v =>
          simp only [textsOf_append, textsOf, List.filterMap_cons]
          simpa [textsOf] using ih0
    | txt s =>
      have ih0 : textsOf (filterGo [] rest) = textsOf rest := by
        simpa [textsOf] using ih ([] : List XTok)
      simp only [filterGo]
      rcases hu : u.getLast? with _ | ⟨tok⟩
      · have : u = [] := by simpa using List.getLast?_eq_none_iff.mp hu
        subst this
        simp only [textsOf, List.filterMap_cons]
        simpa [textsOf] using ih0
      · cases tok with
        | start n =>
          simp only [textsOf_append, textsOf, List.filterMap_cons]
          simpa [textsOf] using ih0
        | stop n =>
          rw [ih (u ++ [XTok.txt s]), textsOf_append]
          simp [textsOf]
        | txt v =>
          rw [ih (u ++ [XTok.txt s]), textsOf_append]
          simp [textsOf]
        | misc v =>
          rw [ih (u ++ [XTok.txt s]), textsOf_append]
          simp [textsOf]

/-- `true` when the list has no comment/directive/processing-instruction
token. -/
def noMisc : List XTok → Bool
  | [] => true
  | XTok.misc _ :: _ => false
  | _ :: rest => noMisc rest

/-- `true` when no start tag is immediately followed by an end tag
(the shape `FilterEmptyTags` deletes; the Go code does not compare the
two names, the decoder guarantees they match). -/
def noPair : List XTok → Bool
  | XTok.start _ :: XTok.stop _ :: _ => false
  | _ :: rest => noPair rest
  | [] => true

theorem noMisc_cons_start {t : String} {rest : List XTok} :
    noMisc (XTok.start t :: rest) = noMisc rest := rfl

/-- On a comment-free token list with no adjacent start/end pair, the
filter loop is the identity; the second component handles a pending
start element. -/
theorem filterGo_id (y : List XTok) (hm : noMisc y = true) (hp : noPair y = true) :
    filterGo [] y = y ∧
      ∀ t, (∀ n rest, y ≠ XTok.stop n :: rest) →
        filterGo [XTok.start t] y = XTok.start t :: y := by
  induction y with
  | nil =>
    refine ⟨rfl, ?_⟩
    intro t _
    rfl
  | cons c rest ih =>
    cases c with
    | misc s => simp [noMisc] at hm
    | txt s =>
      have hm' : noMisc rest = true := hm
      have hp' : noPair rest = true := hp
      have ih' := ih hm' hp'
      constructor
      · simp [filterGo, ih'.1]
      · intro t _
        simp [filterGo, ih'.1]
    | stop n =>
      have hm' : noMisc rest = true := hm
      have hp' : noPair rest = true := hp
      have ih' := ih hm' hp'
      constructor
      · simp [filterGo, ih'.1]
      · intro t habs
        exact absurd rfl (habs n rest)
    | start t0 =>
      have hm' : noMisc rest = true := hm
      have hstop : ∀ n r2, rest ≠ XTok.stop n :: r2 := by
        intro n r2 habs
        rw [habs] at hp
        simp [noPair] at hp
      have hp' : noPair rest = true := by
        cases rest with
        | nil => rfl
        | cons d r2 =>
          cases d with
          | stop n => exact absurd rfl (hstop n r2)
          | start m => exact hp
          | txt v => exact hp
          | misc v => exact hp
      have ih' := ih hm' hp'
      have key : filterGo [XTok.start t0] rest = XTok.start t0 :: rest :=
        ih'.2 t0 hstop
      constructor
      · simp [filterGo, key]
      · intro t _
        simp [filterGo, key]

theorem noMisc_dropLast (u : List XTok) (hu : noMisc u = true) :
    noMisc u.dropLast = true := by
  induction u with
  | nil => rfl
  | cons a t ih =>
    cases t with
    | nil => rfl
    | cons b t2 =>
      simp only [List.dropLast_cons₂]
      cases a with
      | misc s => simp [noMisc] at hu
      | start n => exact ih hu
      | stop n => exact ih hu
      | txt v => exact ih hu

/-- `filterGo` introduces no comment/PI tokens beyond those of its
inputs. -/
theorem noMisc_filterGo (ts : List XTok) :
    ∀ u, noMisc u = true → noMisc ts = true → noMisc (filterGo u ts) = true := by
  induction ts with
  | nil => intro u hu _; simpa [filterGo] using hu
  | cons c rest ih =>
    intro u hu hts
    have happend : ∀ a b : List XTok, noMisc a = true → noMisc b = true →
        noMisc (a ++ b) = true := by
      intro a
      induction a with
      | nil => intro b _ hb; simpa using hb
      | cons x xs ihx =>
        intro b hx hb
        cases x with
        | misc s => simp [noMisc] at hx
        | start t => exact ihx b hx hb
        | stop t => exact ihx b hx hb
        | txt s => exact ihx b hx hb
    cases c with
    | misc s => simp [noMisc] at hts
    | start t =>
      have hts' : noMisc rest = true := hts
      exact happend u _ hu (ih [XTok.start t] rfl hts')
    | stop t =>
      have hts' : noMisc rest = true := hts
      simp only [filterGo]
      rcases hlast : u.getLast? with _ | ⟨tok⟩
      · have : u = [] := by simpa using List.getLast?_eq_none_iff.mp hlast
        subst this
        exact ih [] rfl hts'
      · cases tok with
        | start n =>
          exact ih u.dropLast (noMisc_dropLast u hu) hts'
        | stop n => exact happend u _ hu (ih [] rfl hts')
        | txt v => exact happend u _ hu (ih [] rfl hts')
        | misc v =>
          exact happend u _ hu (ih [] rfl hts')
    | txt s =>
      have hts' : noMisc rest = true := hts
      simp only [filterGo]
      rcases hlast : u.getLast? with _ | ⟨tok⟩
      · exact ih [] rfl hts'
      · cases tok with
        | start n => exact happend u _ hu (ih [] rfl hts')
        | stop n =>
          refine ih (u ++ [XTok.txt s]) (happend u [XTok.txt s] hu rfl) hts'
        | txt v =>
          refine ih (u ++ [XTok.txt s]) (happend u [XTok.txt s] hu rfl) hts'
        | misc v =>
          refine ih (u ++ [XTok.txt s]) (happend u [XTok.txt s] hu rfl) hts'

/-- C2 (counterexample): `FilterEmptyTags` is not idempotent.  On the
body `<a><b></b></a>` one pass removes only the inner empty element
and outputs `<a></a>`; the second pass removes that as well, so running
the filter twice differs from running it once. -/
theorem C2_filter_not_idempotent_counterexample :
    filterEmptyTags (filterEmptyTags
        [XTok.start "a", XTok.start "b", XTok.stop "b", XTok.stop "a"]) ≠
      filterEmptyTags
        [XTok.start "a", XTok.start "b", XTok.stop "b", XTok.stop "a"] := by
  decide

/-- C2 (amended): `FilterEmptyTags` never removes character data — the
character data of the output equals that of the input, in order, for
every input — and it is idempotent on inputs free of comment/PI/directive
tokens whose single-pass output contains no adjacent start/end tag pair
(i.e. whenever one pass does not create a new empty element). -/
theorem C2_filter_content_preserving_conditionally_idempotent (x : List XTok) :
    textsOf (filterEmptyTags x) = textsOf x ∧
      (noMisc x = true → noPair (filterEmptyTags x) = true →
        filterEmptyTags (filterEmptyTags x) = filterEmptyTags x) := by
  constructor
  · simpa [textsOf] using textsOf_filterGo x []
  · intro hm hp
    have hm' : noMisc (filterEmptyTags x) = true :=
      noMisc_filterGo x [] rfl hm
    exact (filterGo_id (filterEmptyTags x) hm' hp).1

/-- C2 witness: the amended theorem applied to the concrete body
`<a>hi</a><b></b>`, whose filtered form `<a>hi</a>` has no new empty
pair. -/
theorem C2_filter_witness :
    textsOf (filterEmptyTags
        [XTok.start "a", XTok.txt "hi", XTok.stop "a",
         XTok.start "b", XTok.stop "b"]) =
      textsOf
        [XTok.start "a", XTok.txt "hi", XTok.stop "a",
         XTok.start "b", XTok.stop "b"] ∧
      filterEmptyTags (filterEmptyTags
        [XTok.start "a", XTok.txt "hi", XTok.stop "a",
         XTok.start "b", XTok.stop "b"]) =
      filterEmptyTags
        [XTok.start "a", XTok.txt "hi", XTok.stop "a",
         XTok.start "b", XTok.stop "b"] := by
  have h := C2_filter_content_preserving_conditionally_idempotent
    [XTok.start "a", XTok.txt "hi", XTok.stop "a",
     XTok.start "b", XTok.stop "b"]
  exact ⟨h.1, h.2 (by decide) (by decide)⟩

/-! ## C1/C5/C6: the streaming merge encoder
    (`soapHandler.encodeResponse`, `sliceSaver`, `findOuterTag`;
    src/unnamed/part_010 lines 1234-1488, 1969-1993)

A backend response message is modelled by the result of its
`grpcer.SliceFields` classification (an external collaborator: fields
are partitioned structurally into repeatable/slice fields and scalar
fields): `scalars` are the non-slice fields with their character
values, `slices` the repeatable fields with their elements, each
element given by its inner XML encoding.  `raw` is the value of the
message type's first exported string field, used by raw mode.

Go `encoding/xml` encoding is modelled at the token level:
`EncodeElement(v, start)` of a struct emits the fields between
`start`/`stop` tags, and of a slice emits each element wrapped in the
`start` tag. -/

structure Msg where
  scalars : List (String × String)
  slices : List (String × List (List XTok))
  raw : String
deriving DecidableEq, Repr, Inhabited

/-- The per-request data of `requestInfo` consulted by
`encodeResponse`: the `Raw` annotation flag, the `Forbid-Merge`
header, the action, the raw-mode namespace splice strings
(`requestInfo.Prefix`/`Postfix`) and the response type name (Go
`fmt.Sprintf("%T", part)` with the `*` stripped). -/
structure ReqInfo where
  raw : Bool
  forbidMerge : Bool
  action : String
  nsPre : String
  nsPost : String
  typName : String
deriving DecidableEq, Repr, Inhabited

/-- Handler configuration relevant to `encodeResponse`: whether the
`EncodeOutput` capability is configured, and (when it is) the token
output the capability produces for a message. -/
structure HandlerCfg where
  hasEncodeOutput : Bool
  encOut : Msg → List XTok

/-- The synthesized outer element name: `Action_Output` when the
message type name ends in `_Output` (the `EncodeElement` branch),
otherwise the name standard encoding derives from the type. -/
def outerNameOf (req : ReqInfo) : String :=
  if req.typName.endsWith "_Output" then req.action ++ "_Output" else req.typName

/-- Standard element encoding of a scalar (non-slice) field. -/
def encodeScalar (f : String × String) : List XTok :=
  [XTok.start f.1, XTok.txt f.2, XTok.stop f.1]

/-- Standard element encoding of a slice field: each element wrapped
in the field tag, as Go xml marshalling of a slice does. -/
def encodeSliceField (f : String × List (List XTok)) : List XTok :=
  f.2.flatMap fun e => XTok.start f.1 :: e ++ [XTok.stop f.1]

/-- Standard encoding of a whole message under `outer` (scalar fields,
then the repeatable fields; `grpcer.SliceFields` has already separated
the two groups). -/
def encodeMsg (outer : String) (m : Msg) : List XTok :=
  XTok.start outer ::
    (m.scalars.flatMap encodeScalar ++ m.slices.flatMap encodeSliceField)
    ++ [XTok.stop outer]

/-- The first-message "zero part" of the merge path: a zero value of
the message type with only the non-slice fields populated, encoded
once (empty slice fields emit nothing). -/
def encodeMsg0 (outer : String) (m : Msg) : List XTok :=
  XTok.start outer :: m.scalars.flatMap encodeScalar ++ [XTok.stop outer]

/-- Name of the first tag in a serialized fragment (the first `<` of
`findOuterTag`; preceding character data contains no `<` after xml
escaping). -/
def firstTagName : List XTok → Option String
  | [] => none
  | XTok.start n :: _ => some n
  | XTok.stop n :: _ => some n
  | _ :: rest => firstTagName rest

/-- Split a token list around the LAST end tag with the given name:
`some (pre, post)` with the list equal to `pre ++ [stop name] ++ post`.
This is `bytes.LastIndex(b, "</"+tag)` of `findOuterTag` at token
level (on the encoder outputs it is applied to, which end with the
root's own end tag, both locate that final end tag). -/
def splitAtLastStop (name : String) : List XTok → Option (List XTok × List XTok)
  | [] => none
  | t :: rest =>
    match splitAtLastStop name rest with
    | some (pre, post) => some (t :: pre, post)
    | none => if t = XTok.stop name then some ([], rest) else none

/-- `findOuterTag` at token level: locate the first tag, then
everything before its last matching end tag (`b[:end[0]]`) and the tag
name (for the deferred `b[end[0]:end[1]]` end-tag write). -/
def findOuterTagToks (b : List XTok) : Option (List XTok × String) :=
  match firstTagName b with
  | none => none
  | some n =>
    match splitAtLastStop n b with
    | none => none
    | some (pre, _) => some (pre, n)

/-- Spill-buffer resource events.  `create n` is `grpcer.NewTempFile`
for field `n`; `destroy n` is the buffer's `Close`.
Modelled from the spec: `grpcer.TempFile` (an external dependency of
which only the call sites are in this repository) is a temporary
compressed file whose `Close` closes the writer and file handle and
removes the backing file — spec §3 "Spill buffer … destroyed (file
removed, handles closed) when the response finishes writing". -/
inductive SpillEv where
  | create (n : String)
  | destroy (n : String)
deriving DecidableEq, Repr

/-- The `sliceSaver` spill map: per field name the bytes written so
far to its temp file, in creation order, plus the resource trace. -/
def SpillFiles := List (String × List XTok)

def spillLookup (files : List (String × List XTok)) (n : String) :
    Option (List XTok) :=
  (files.find? fun f => f.1 = n).map Prod.snd

def spillAppend (files : List (String × List XTok)) (n : String)
    (b : List XTok) : List (String × List XTok) :=
  files.map fun f => if f.1 = n then (f.1, f.2 ++ b) else f

/-- `sliceSaver.Encode name value` (src/unnamed/part_010 lines
1470-1488): encode the slice value wrapped per element in the field
tag, append a newline, create the temp file on first use and append
the bytes. -/
def ssEncode (files : List (String × List XTok)) (trace : List SpillEv)
    (name : String) (elems : List (List XTok)) :
    List (String × List XTok) × List SpillEv :=
  let b := (elems.flatMap fun e => XTok.start name :: e ++ [XTok.stop name])
    ++ [XTok.txt "\n"]
  match spillLookup files name with
  | some _ => (spillAppend files name b, trace)
  | none => (files ++ [(name, b)], trace ++ [SpillEv.create name])

/-- One message's slice fields spilled in field order; fields with no
elements are skipped (`rf.IsZero() || rf.Len() == 0`). -/
def encodeSliceFields (m : Msg)
    (st : List (String × List XTok) × List SpillEv) :
    List (String × List XTok) × List SpillEv :=
  m.slices.foldl
    (fun st f => if f.2.isEmpty then st else ssEncode st.1 st.2 f.1 f.2) st

/-- `fieldOrder` update: append the names not yet recorded, in order. -/
def addFieldNames (fo : List String) (names : List String) : List String :=
  names.foldl (fun fo n => if n ∈ fo then fo else fo ++ [n]) fo

/-- The merge loop over the messages after the first: the new
message's slice-field names are recorded in `fieldOrder` when it is
received (end of the previous iteration), then its fields are
spilled. -/
def mergeMsgs : List Msg → List String →
    List (String × List XTok) × List SpillEv →
    List String × (List (String × List XTok) × List SpillEv)
  | [], fo, st => (fo, st)
  | m :: rest, fo, st =>
    mergeMsgs rest (addFieldNames fo (m.slices.map Prod.fst))
      (encodeSliceFields m st)

/-- Draining the spill buffers in first-seen field order
(src/unnamed/part_010 lines 1440-1451): each buffer's decompressed
bytes are copied out.  A field recorded in `fieldOrder` but never
spilled has no temp file (its `GetReader` fails on the nil entry) and
contributes nothing. -/
def drainSpills (files : List (String × List XTok)) (fo : List String) :
    List XTok :=
  fo.flatMap fun nm =>
    match spillLookup files nm with
    | some content => content
    | none => []

inductive RecvEnd where
  | eof
  | fail
deriving DecidableEq, Repr

def RecvEnd.isFail : RecvEnd → Bool
  | RecvEnd.fail => true
  | RecvEnd.eof => false

inductive RespPath where
  | fault
  | noMerge
  | merge
deriving DecidableEq, Repr

structure RespOut where
  body : List XTok
  path : RespPath
  trace : List SpillEv

/-- The envelope header plus `<soapenv:Body>` written up front. -/
def envOpenToks : List XTok :=
  [XTok.start "soapenv:Envelope", XTok.txt "\n",
   XTok.start "soapenv:Body", XTok.txt "\n"]

/-- `soapEnvelopeFooter`, written by the deferred closure. -/
def envCloseToks : List XTok :=
  [XTok.txt "\n", XTok.stop "soapenv:Body", XTok.stop "soapenv:Envelope"]

/-- The `encodeSoapFault(w, err, true)` body content (its detailed
status/faultcode computation is modelled separately for the fault
mapper claim). -/
def faultBodyToks : List XTok :=
  [XTok.start "soapenv:Fault", XTok.stop "soapenv:Fault"]

/-- The no-merge loop ("Nothing to merge") applied to the messages the
loop actually sees: each one in order via raw mode / the
`EncodeOutput` capability / standard encoding, a newline after each;
in raw mode the loop is bracketed by the synthesized
`<Prefix Action_Output Postfix>` wrapper (the attribute splice
`Postfix` has no token-level counterpart).  The loop starts from
`part` and then always pulls afresh (`part, err = recv.Recv()`); it
never reads the eagerly pre-pulled `next`, so `encodeResponse` passes
it the stream with the second message removed. -/
def noMergeToks (cfg : HandlerCfg) (req : ReqInfo) (outer : String)
    (msgs : List Msg) : List XTok :=
  let inner := msgs.flatMap fun m =>
    (if req.raw then [XTok.txt m.raw]
     else if cfg.hasEncodeOutput then cfg.encOut m
     else encodeMsg outer m) ++ [XTok.txt "\n"]
  if req.raw then
    XTok.start (req.nsPre ++ req.action ++ "_Output") :: inner
      ++ [XTok.stop (req.nsPre ++ req.action ++ "_Output")]
  else inner

/-- `soapHandler.encodeResponse` (src/unnamed/part_010 lines
1234-1452) for a response stream delivering `msgs` and then the
terminal condition `e` (`io.EOF` or another receive error).  The two
eager pulls, the fault short-circuits, the `shouldMerge` decision, the
no-merge loop (which never consumes the pre-pulled `next`, so the
second message is dropped there) and the merge path with its zero-part
prefix/deferred end tag, spill buffers and drain are transcribed; the
returned `trace`
records the spill buffers' resource lifecycle (`defer ss.Close()`
destroys every file left in the map on every exit of the merge
branch). -/
def encodeResponse (cfg : HandlerCfg) (req : ReqInfo) (msgs : List Msg)
    (e : RecvEnd) : RespOut :=
  match msgs with
  | [] =>
    -- recvErr != nil: emit a fault and return
    { body := envOpenToks ++ faultBodyToks ++ envCloseToks
      path := RespPath.fault
      trace := [] }
  | m1 :: rest =>
    if rest.isEmpty && RecvEnd.isFail e then
      -- nextErr != nil && !errors.Is(nextErr, io.EOF)
      { body := envOpenToks ++ faultBodyToks ++ envCloseToks
        path := RespPath.fault
        trace := [] }
    else
      let nextNil := !rest.isEmpty
      let shouldMerge :=
        !req.raw && !cfg.hasEncodeOutput && nextNil && !req.forbidMerge
      let slice := if shouldMerge then m1.slices else []
      let outer := outerNameOf req
      if slice.isEmpty then
        -- the loop encodes `part` and then only freshly pulled
        -- messages; the pre-pulled `next` (head of `rest`) is dropped
        { body := envOpenToks
            ++ noMergeToks cfg req outer (m1 :: rest.drop 1) ++ envCloseToks
          path := RespPath.noMerge
          trace := [] }
      else
        let zp := encodeMsg0 outer m1
        match findOuterTagToks zp with
        | none =>
          -- "no findOuterTag": break before any spill write; the
          -- deferred end tag was never registered
          { body := envOpenToks ++ envCloseToks
            path := RespPath.merge
            trace := [] }
        | some (pre, tagName) =>
          let fo0 := m1.slices.map Prod.fst
          let st1 := encodeSliceFields m1 ([], [])
          let res := mergeMsgs rest fo0 st1
          let fo := res.1
          let files := res.2.1
          let trace := res.2.2
          { body := envOpenToks ++ pre ++ [XTok.txt "\n"]
              ++ drainSpills files fo ++ [XTok.stop tagName] ++ envCloseToks
            path := RespPath.merge
            trace := trace ++ files.map fun f => SpillEv.destroy f.1 }

/-- What one message contributes to a field's spill buffer: each of
its elements wrapped in the field tag, then the newline. -/
def itemsBlock (f : String) (es : List (List XTok)) : List XTok :=
  (es.flatMap fun e => XTok.start f :: e ++ [XTok.stop f]) ++ [XTok.txt "\n"]

theorem splitAtLastStop_append_stop (n : String) (l : List XTok) :
    splitAtLastStop n (l ++ [XTok.stop n]) = some (l, []) := by
  induction l with
  | nil => simp [splitAtLastStop]
  | cons t rest ih => simp [splitAtLastStop, ih]

theorem findOuterTagToks_encodeMsg0 (outer : String) (m : Msg) :
    findOuterTagToks (encodeMsg0 outer m) =
      some (XTok.start outer :: m.scalars.flatMap encodeScalar, outer) := by
  have h1 : firstTagName (encodeMsg0 outer m) = some outer := rfl
  have h2 : splitAtLastStop outer (encodeMsg0 outer m) =
      some (XTok.start outer :: m.scalars.flatMap encodeScalar, []) := by
    show splitAtLastStop outer
        (XTok.start outer :: (m.scalars.flatMap encodeScalar ++ [XTok.stop outer]))
      = _
    simp [splitAtLastStop, splitAtLastStop_append_stop]
  simp [findOuterTagToks, h1, h2]

theorem encodeSliceFields_single (f : String) (es : List (List XTok))
    (hne : es ≠ []) (m : Msg) (hm : m.slices = [(f, es)])
    (acc : List XTok) (tr : List SpillEv) :
    encodeSliceFields m ([(f, acc)], tr) = ([(f, acc ++ itemsBlock f es)], tr) := by
  simp only [encodeSliceFields, hm, List.foldl_cons, List.foldl_nil]
  have : es.isEmpty = false := by
    cases es with
    | nil => exact absurd rfl hne
    | cons a t => rfl
  simp [this, ssEncode, spillLookup, spillAppend, itemsBlock]

theorem mergeMsgs_single (f : String) (es : Msg → List (List XTok)) :
    ∀ (rest : List Msg), (∀ m ∈ rest, m.slices = [(f, es m)]) →
      (∀ m ∈ rest, es m ≠ []) →
      ∀ (acc : List XTok) (tr : List SpillEv),
        mergeMsgs rest [f] ([(f, acc)], tr) =
          ([f], ([(f, acc ++ rest.flatMap fun m => itemsBlock f (es m))], tr)) := by
  intro rest
  induction rest with
  | nil => intro _ _ acc tr; simp [mergeMsgs]
  | cons m r2 ih =>
    intro hsl hne acc tr
    have hm : m.slices = [(f, es m)] := hsl m (List.mem_cons_self m r2)
    have hmne : es m ≠ [] := hne m (List.mem_cons_self m r2)
    have hfo : addFieldNames [f] (m.slices.map Prod.fst) = [f] := by
      simp [hm, addFieldNames]
    simp only [mergeMsgs, hfo,
      encodeSliceFields_single f (es m) hmne m hm acc tr]
    rw [ih (fun x hx => hsl x (List.mem_cons_of_mem m hx))
      (fun x hx => hne x (List.mem_cons_of_mem m hx))]
    simp [List.append_assoc]

theorem balanced_append {a b : List XTok}
    (ha : chkStack [] a = some []) (hb : chkStack [] b = some []) :
    chkStack [] (a ++ b) = some [] := by
  rw [chkStack_append, ha]
  simpa using hb

theorem balanced_flatMap {α : Type} (g : α → List XTok) :
    ∀ (l : List α), (∀ x ∈ l, chkStack [] (g x) = some []) →
      chkStack [] (l.flatMap g) = some [] := by
  intro l
  induction l with
  | nil => intro _; rfl
  | cons x t ih =>
    intro h
    rw [List.flatMap_cons]
    exact balanced_append (h x (List.mem_cons_self x t))
      (ih fun y hy => h y (List.mem_cons_of_mem x hy))

theorem balanced_wrap (n : String) {e : List XTok}
    (he : chkStack [] e = some []) :
    chkStack [] (XTok.start n :: e ++ [XTok.stop n]) = some [] := by
  show chkStack [n] (e ++ [XTok.stop n]) = some []
  rw [chkStack_append, chkStack_balanced_frame e he [n]]
  simp [chkStack]

theorem balanced_encodeScalar (x : String × String) :
    chkStack [] (encodeScalar x) = some [] := by
  simp [encodeScalar, chkStack]

theorem balanced_itemsBlock (f : String) (es : List (List XTok))
    (h : ∀ e ∈ es, chkStack [] e = some []) :
    chkStack [] (itemsBlock f es) = some [] := by
  refine balanced_append (balanced_flatMap _ es fun e he => ?_) rfl
  exact balanced_wrap f (h e he)

set_option maxHeartbeats 1000000 in
/-- C1: merge path correctness.  For a stream of at least two messages
that each contribute non-empty elements to the same repeatable field
`f` (and to no other repeatable field), with merging enabled (raw mode
off, no `EncodeOutput` capability, no `Forbid-Merge`), `encodeResponse`
takes the merge path and its document consists of the fixed prefix (the
scalar fields of the first message under the outer tag), followed by
all the messages' elements in message-arrival order, each wrapped
exactly once in the field's tag, the deferred outer end tag and the
envelope closers — a single well-formed XML tree. -/
theorem C1_merge_path_correct (cfg : HandlerCfg) (req : ReqInfo)
    (f : String) (es : Msg → List (List XTok))
    (m1 m2 : Msg) (rest : List Msg) (e : RecvEnd)
    (hraw : req.raw = false) (henc : cfg.hasEncodeOutput = false)
    (hfm : req.forbidMerge = false)
    (hes : ∀ m ∈ m1 :: m2 :: rest, m.slices = [(f, es m)])
    (hne : ∀ m ∈ m1 :: m2 :: rest, es m ≠ [])
    (hbal : ∀ m ∈ m1 :: m2 :: rest, ∀ x ∈ es m, chkStack [] x = some []) :
    (encodeResponse cfg req (m1 :: m2 :: rest) e).path = RespPath.merge ∧
    (encodeResponse cfg req (m1 :: m2 :: rest) e).body =
      envOpenToks
        ++ (XTok.start (outerNameOf req) :: m1.scalars.flatMap encodeScalar)
        ++ [XTok.txt "\n"]
        ++ ((m1 :: m2 :: rest).flatMap fun m => itemsBlock f (es m))
        ++ [XTok.stop (outerNameOf req)] ++ envCloseToks ∧
    wellFormed (encodeResponse cfg req (m1 :: m2 :: rest) e).body = true := by
  have hm1 : m1.slices = [(f, es m1)] := hes m1 (by simp)
  have hm1ne : es m1 ≠ [] := hne m1 (by simp)
  have hout : encodeResponse cfg req (m1 :: m2 :: rest) e =
      { body := envOpenToks
          ++ (XTok.start (outerNameOf req) :: m1.scalars.flatMap encodeScalar)
          ++ [XTok.txt "\n"]
          ++ ((m1 :: m2 :: rest).flatMap fun m => itemsBlock f (es m))
          ++ [XTok.stop (outerNameOf req)] ++ envCloseToks
        path := RespPath.merge
        trace := [SpillEv.create f] ++ [SpillEv.destroy f] } := by
    have hseed : encodeSliceFields m1 (([] : List (String × List XTok)), ([] : List SpillEv)) =
        ([(f, itemsBlock f (es m1))], [SpillEv.create f]) := by
      simp only [encodeSliceFields, hm1, List.foldl_cons, List.foldl_nil]
      have : (es m1).isEmpty = false := by
        cases h : es m1 with
        | nil => exact absurd h hm1ne
        | cons a t => rfl
      simp [this, ssEncode, spillLookup, itemsBlock]
    have hmm := mergeMsgs_single f es (m2 :: rest)
      (fun x hx => hes x (List.mem_cons_of_mem m1 hx))
      (fun x hx => hne x (List.mem_cons_of_mem m1 hx))
      (itemsBlock f (es m1)) [SpillEv.create f]
    simp only [encodeResponse, List.isEmpty_cons, Bool.false_and, hraw, henc, hfm,
      Bool.not_false, Bool.and_self, Bool.true_and, Bool.and_true, Bool.not_true]
    simp only [hm1, List.isEmpty_cons, findOuterTagToks_encodeMsg0]
    simp only [List.map_cons, List.map_nil, hseed, hmm]
    simp only [drainSpills, spillLookup, List.flatMap_cons, List.flatMap_nil,
      List.find?, List.append_nil]
    simp [List.append_assoc, List.flatMap_cons]
  refine ⟨by rw [hout], by rw [hout], ?_⟩
  have hmid : chkStack []
      ((XTok.start (outerNameOf req) :: m1.scalars.flatMap encodeScalar
        ++ [XTok.txt "\n"]
        ++ ((m1 :: m2 :: rest).flatMap fun m => itemsBlock f (es m)))
        ++ [XTok.stop (outerNameOf req)]) = some [] := by
    have hinner : chkStack []
        (m1.scalars.flatMap encodeScalar ++ [XTok.txt "\n"]
          ++ ((m1 :: m2 :: rest).flatMap fun m => itemsBlock f (es m))) = some [] := by
      refine balanced_append (balanced_append ?_ rfl) ?_
      · exact balanced_flatMap _ _ fun x _ => balanced_encodeScalar x
      · exact balanced_flatMap _ _ fun m hm =>
          balanced_itemsBlock f (es m) fun x hx => hbal m hm x hx
    have := balanced_wrap (outerNameOf req) hinner
    simpa [List.append_assoc] using this
  have hb : (encodeResponse cfg req (m1 :: m2 :: rest) e).body
      = envOpenToks
        ++ ((XTok.start (outerNameOf req) :: m1.scalars.flatMap encodeScalar
          ++ [XTok.txt "\n"]
          ++ ((m1 :: m2 :: rest).flatMap fun m => itemsBlock f (es m)))
          ++ [XTok.stop (outerNameOf req)])
        ++ envCloseToks := by
    rw [hout]
    simp [List.append_assoc]
  unfold wellFormed
  rw [decide_eq_true_eq, hb]
  rw [chkStack_append, chkStack_append]
  have h1 : chkStack [] envOpenToks = some ["soapenv:Body", "soapenv:Envelope"] := by
    simp [envOpenToks, chkStack]
  rw [h1]
  rw [Option.some_bind]
  rw [chkStack_balanced_frame _ hmid ["soapenv:Body", "soapenv:Envelope"]]
  rw [Option.some_bind]
  simp [envCloseToks, chkStack]

/-- C1 witness: the Items scenario — three messages, each with two
`Items` elements — merged into six `Items` elements in arrival order
inside one well-formed document. -/
theorem C1_merge_witness :
    (encodeResponse
      { hasEncodeOutput := false, encOut := fun _ => [] }
      { raw := false, forbidMerge := false, action := "Q", nsPre := "",
        nsPost := "", typName := "pkg.Q_Output" }
      [{ scalars := [("Total", "6")],
         slices := [("Items", [[XTok.txt "1"], [XTok.txt "2"]])], raw := "" },
       { scalars := [], slices := [("Items", [[XTok.txt "3"], [XTok.txt "4"]])],
         raw := "" },
       { scalars := [], slices := [("Items", [[XTok.txt "5"], [XTok.txt "6"]])],
         raw := "" }] RecvEnd.eof).path = RespPath.merge ∧
    wellFormed (encodeResponse
      { hasEncodeOutput := false, encOut := fun _ => [] }
      { raw := false, forbidMerge := false, action := "Q", nsPre := "",
        nsPost := "", typName := "pkg.Q_Output" }
      [{ scalars := [("Total", "6")],
         slices := [("Items", [[XTok.txt "1"], [XTok.txt "2"]])], raw := "" },
       { scalars := [], slices := [("Items", [[XTok.txt "3"], [XTok.txt "4"]])],
         raw := "" },
       { scalars := [], slices := [("Items", [[XTok.txt "5"], [XTok.txt "6"]])],
         raw := "" }] RecvEnd.eof).body = true := by
  have h := C1_merge_path_correct
    { hasEncodeOutput := false, encOut := fun _ => [] }
    { raw := false, forbidMerge := false, action := "Q", nsPre := "",
      nsPost := "", typName := "pkg.Q_Output" }
    "Items"
    (fun m => (m.slices.headD ("", [])).2)
    { scalars := [("Total", "6")],
      slices := [("Items", [[XTok.txt "1"], [XTok.txt "2"]])], raw := "" }
    { scalars := [], slices := [("Items", [[XTok.txt "3"], [XTok.txt "4"]])],
      raw := "" }
    [{ scalars := [], slices := [("Items", [[XTok.txt "5"], [XTok.txt "6"]])],
       raw := "" }]
    RecvEnd.eof rfl rfl rfl
    (by intro m hm; fin_cases hm <;> rfl)
    (by intro m hm; fin_cases hm <;> simp)
    (by intro m hm; fin_cases hm <;> (intro x hx; fin_cases hx <;> rfl))
  exact ⟨h.1, h.2.2⟩

/-- A handler with no `EncodeOutput` capability, for the C5 witness. -/
def cfgW5 : HandlerCfg :=
  { hasEncodeOutput := false, encOut := fun _ => [] }

/-- A non-raw request with the `Forbid-Merge` header set, for the C5
witness: it forces the no-merge path even on mergeable content. -/
def reqW5 : ReqInfo :=
  { raw := false, forbidMerge := true, action := "A", nsPre := "",
    nsPost := "", typName := "T" }

/-- First message of the C5 witness stream. -/
def msgW5a : Msg :=
  { scalars := [("Id", "1")], slices := [("Items", [[XTok.txt "x"]])],
    raw := "" }

/-- Second (eagerly pre-pulled, then dropped) message of the C5
witness stream. -/
def msgW5b : Msg :=
  { scalars := [("Id", "2")], slices := [("Items", [[XTok.txt "y"]])],
    raw := "" }

/-- C5 counterexample: with an empty stream whose first pull fails,
none of the merge conditions hold, yet the response is a SOAP fault —
the no-merge path does not encode the messages one by one. -/
theorem C5_decision_counterexample :
    (encodeResponse { hasEncodeOutput := false, encOut := fun _ => [] }
      { raw := false, forbidMerge := false, action := "A", nsPre := "",
        nsPost := "", typName := "T" } [] RecvEnd.fail).path ≠ RespPath.noMerge ∧
    (encodeResponse { hasEncodeOutput := false, encOut := fun _ => [] }
      { raw := false, forbidMerge := false, action := "A", nsPre := "",
        nsPost := "", typName := "T" } [] RecvEnd.fail).path ≠ RespPath.merge := by
  constructor <;> (intro h; simp [encodeResponse] at h)

/-- C5 (amended): the merge path is taken iff raw mode is off, no
`EncodeOutput` capability is configured, the caller did not set the
`Forbid-Merge` header, the eager second pull returned a message (no
error at all, end-of-stream included), and the first message
classifies with at least one repeatable field; a fault is emitted
exactly when the first pull failed or the second failed with a
non-end-of-stream error; in every remaining case the no-merge loop
encodes the first message and then only freshly pulled messages, one
by one — it never consumes the eagerly pre-pulled second message, so
on a multi-message no-merge stream that message is dropped from the
output (the body is what the loop yields on the stream with the
second message removed). -/
theorem C5_merge_decision (cfg : HandlerCfg) (req : ReqInfo)
    (msgs : List Msg) (e : RecvEnd) :
    ((encodeResponse cfg req msgs e).path = RespPath.merge ↔
      (req.raw = false ∧ cfg.hasEncodeOutput = false ∧ req.forbidMerge = false ∧
        ∃ m1 m2 rest, msgs = m1 :: m2 :: rest ∧ m1.slices ≠ [])) ∧
    ((encodeResponse cfg req msgs e).path = RespPath.fault ↔
      (msgs = [] ∨ ∃ m1, msgs = [m1] ∧ e = RecvEnd.fail)) ∧
    (∀ m1 m2 rest, msgs = m1 :: m2 :: rest →
      (encodeResponse cfg req msgs e).path = RespPath.noMerge →
      (encodeResponse cfg req msgs e).body =
        envOpenToks ++ noMergeToks cfg req (outerNameOf req) (m1 :: rest)
          ++ envCloseToks) := by
  cases msgs with
  | nil =>
    refine ⟨by simp [encodeResponse], by simp [encodeResponse], ?_⟩
    intro m1 m2 rest h
    exact absurd h (by simp)
  | cons m1 rest =>
    cases rest with
    | nil =>
      refine ⟨?_, ?_, ?_⟩
      · cases e <;> simp [encodeResponse, RecvEnd.isFail, outerNameOf]
      · cases e <;> simp [encodeResponse, RecvEnd.isFail, outerNameOf]
      · intro a b r h
        exact absurd h (by simp)
    | cons m2 rest2 =>
      have hpath : (encodeResponse cfg req (m1 :: m2 :: rest2) e).path =
          (if req.raw = false ∧ cfg.hasEncodeOutput = false ∧
              req.forbidMerge = false ∧ m1.slices ≠ []
           then RespPath.merge else RespPath.noMerge) := by
        cases hr : req.raw <;> cases hc : cfg.hasEncodeOutput <;>
          cases hf : req.forbidMerge <;> cases hs : m1.slices <;>
          simp [encodeResponse, hr, hc, hf, hs, findOuterTagToks_encodeMsg0]
      refine ⟨?_, ?_, ?_⟩
      · rw [hpath]
        by_cases hcnd : (req.raw = false ∧ cfg.hasEncodeOutput = false ∧
            req.forbidMerge = false ∧ m1.slices ≠ [])
        · simp only [if_pos hcnd]
          constructor
          · intro _
            exact ⟨hcnd.1, hcnd.2.1, hcnd.2.2.1, m1, m2, rest2, rfl, hcnd.2.2.2⟩
          · intro _; trivial
        · simp only [if_neg hcnd]
          constructor
          · intro h; exact absurd h (by simp)
          · rintro ⟨h1, h2, h3, a, b, r, heq, hne⟩
            cases heq
            exact absurd ⟨h1, h2, h3, hne⟩ hcnd
      · rw [hpath]
        constructor
        · intro h
          by_cases hcnd : (req.raw = false ∧ cfg.hasEncodeOutput = false ∧
              req.forbidMerge = false ∧ m1.slices ≠ []) <;>
            simp [hcnd] at h
        · rintro (h | ⟨a, h, _⟩) <;> simp at h
      · intro a b r heq hp
        injection heq with h1 heq'
        injection heq' with h2 h3
        subst h1; subst h2; subst h3
        rw [hpath] at hp
        by_cases hcnd : (req.raw = false ∧ cfg.hasEncodeOutput = false ∧
            req.forbidMerge = false ∧ m1.slices ≠ [])
        · rw [if_pos hcnd] at hp
          exact absurd hp (by simp)
        · cases hr : req.raw <;> cases hc : cfg.hasEncodeOutput <;>
            cases hf : req.forbidMerge <;> cases hs : m1.slices <;>
            first
              | (simp [encodeResponse, hr, hc, hf, hs]; done)
              | exact absurd
                  ⟨hr, hc, hf, fun hnil => List.cons_ne_nil _ _ (hs ▸ hnil)⟩
                  hcnd

theorem C5_merge_witness :
    (encodeResponse cfgW5 reqW5 [msgW5a, msgW5b] RecvEnd.eof).path =
        RespPath.noMerge ∧
    (encodeResponse cfgW5 reqW5 [msgW5a, msgW5b] RecvEnd.eof).body =
      envOpenToks ++ noMergeToks cfgW5 reqW5 (outerNameOf reqW5) [msgW5a]
        ++ envCloseToks :=
  ⟨rfl, (C5_merge_decision cfgW5 reqW5 [msgW5a, msgW5b] RecvEnd.eof).2.2
    msgW5a msgW5b [] rfl rfl⟩

/-- The spill-buffer bookkeeping invariant maintained throughout the
merge loop: the created buffers are exactly the keys of the
`sliceSaver` map, and nothing has been destroyed yet. -/
def SpillInv (files : List (String × List XTok)) (tr : List SpillEv) : Prop :=
  (∀ n, SpillEv.create n ∈ tr ↔ n ∈ files.map Prod.fst) ∧
    (∀ n, SpillEv.destroy n ∉ tr)

theorem spillKeys_spillAppend (files : List (String × List XTok))
    (n : String) (b : List XTok) :
    (spillAppend files n b).map Prod.fst = files.map Prod.fst := by
  induction files with
  | nil => rfl
  | cons f t ih =>
    show ((if f.1 = n then (f.1, f.2 ++ b) else f) :: spillAppend t n b).map
        Prod.fst = f.1 :: t.map Prod.fst
    by_cases h : f.1 = n
    · simp only [if_pos h, List.map_cons, ih]
    · simp only [if_neg h, List.map_cons, ih]

theorem spillInv_ssEncode (files : List (String × List XTok))
    (tr : List SpillEv) (name : String) (elems : List (List XTok))
    (h : SpillInv files tr) :
    SpillInv (ssEncode files tr name elems).1 (ssEncode files tr name elems).2 := by
  unfold ssEncode
  cases hl : spillLookup files name with
  | some v =>
    refine ⟨fun n => ?_, h.2⟩
    simpa [spillKeys_spillAppend] using h.1 n
  | none =>
    constructor
    · intro n
      simp only [List.mem_append, List.map_append, List.map_cons, List.map_nil,
        List.mem_singleton, List.mem_cons]
      rw [h.1 n]
      constructor
      · rintro (hn | hn)
        · exact Or.inl hn
        · simp at hn
          simp [hn]
      · rintro (hn | hn)
        · exact Or.inl hn
        · rcases hn with hn | hn
          · simp [hn]
          · simp at hn
    · intro n
      simp only [List.mem_append, List.mem_singleton]
      rintro (hn | hn)
      · exact h.2 n hn
      · simp at hn

theorem spillInv_encodeSliceFields (fs : List (String × List (List XTok))) :
    ∀ st : List (String × List XTok) × List SpillEv, SpillInv st.1 st.2 →
      SpillInv
        (fs.foldl (fun st f => if f.2.isEmpty then st else ssEncode st.1 st.2 f.1 f.2) st).1
        (fs.foldl (fun st f => if f.2.isEmpty then st else ssEncode st.1 st.2 f.1 f.2) st).2 := by
  induction fs with
  | nil => intro st h; exact h
  | cons f t ih =>
    intro st h
    simp only [List.foldl_cons]
    by_cases hf : f.2.isEmpty
    · simpa [hf] using ih st h
    · have := spillInv_ssEncode st.1 st.2 f.1 f.2 h
      simpa [hf] using ih _ this

theorem spillInv_mergeMsgs (msgs : List Msg) :
    ∀ (fo : List String) (st : List (String × List XTok) × List SpillEv),
      SpillInv st.1 st.2 →
      SpillInv (mergeMsgs msgs fo st).2.1 (mergeMsgs msgs fo st).2.2 := by
  induction msgs with
  | nil => intro fo st h; exact h
  | cons m rest ih =>
    intro fo st h
    simp only [mergeMsgs]
    exact ih _ _ (spillInv_encodeSliceFields m.slices st h)

theorem spill_trace_closed (files : List (String × List XTok))
    (tr : List SpillEv) (h : SpillInv files tr) (n : String) :
    (SpillEv.create n ∈ tr ++ files.map (fun f => SpillEv.destroy f.1) ↔
      SpillEv.destroy n ∈ tr ++ files.map (fun f => SpillEv.destroy f.1)) := by
  simp only [List.mem_append, List.mem_map]
  constructor
  · rintro (hc | ⟨f, _, hf⟩)
    · refine Or.inr ?_
      have : n ∈ files.map Prod.fst := (h.1 n).mp hc
      rcases List.mem_map.mp this with ⟨f, hfm, hfe⟩
      exact ⟨f, hfm, by rw [hfe]⟩
    · exact absurd hf (by simp)
  · rintro (hd | ⟨f, hfm, hfe⟩)
    · exact absurd hd (h.2 n)
    · refine Or.inl ((h.1 n).mpr ?_)
      have hn : f.1 = n := by simpa using hfe
      rw [← hn]
      exact List.mem_map.mpr ⟨f, hfm, rfl⟩

/-- C6: spill-buffer cleanup.  On every exit path of `encodeResponse`
(fault, no-merge, merge with or without mid-stream termination) every
spill buffer created during the request is destroyed (writer and file
closed, backing file removed) before the function returns: the
resource trace contains a `destroy` for a field exactly when it
contains a `create` for it. -/
theorem C6_spill_cleanup (cfg : HandlerCfg) (req : ReqInfo)
    (msgs : List Msg) (e : RecvEnd) (n : String) :
    (SpillEv.create n ∈ (encodeResponse cfg req msgs e).trace ↔
      SpillEv.destroy n ∈ (encodeResponse cfg req msgs e).trace) := by
  cases msgs with
  | nil => simp [encodeResponse]
  | cons m1 rest =>
    simp only [encodeResponse]
    split
    · simp
    · split
      · split
        · simp
        · split
          · simp
          · refine spill_trace_closed _ _ ?_ n
            refine spillInv_mergeMsgs rest _ _ ?_
            exact spillInv_encodeSliceFields m1.slices ([], []) ⟨by simp, by simp⟩
      · simp

/-! ## C4: the fault/error mapper `encodeSoapFault`
    (src/unnamed/part_010 lines 1664-1718) -/

/-- A Go error as `encodeSoapFault` probes it: the optional
`Code() int` capability (via `errors.As`), the `errors.Is` results
against `context.Canceled` and `context.DeadlineExceeded`, the
optional `FaultCode()/FaultString()` capability, and `err.Error()`. -/
structure GoError where
  code : Option Int
  isCanceled : Bool
  isDeadline : Bool
  fault : Option (String × String)
  msg : String
deriving DecidableEq, Repr

/-- `strings.LastIndexByte(s, ':')`: the segment after the last colon,
when a colon occurs. -/
def lastColonSuffix (s : String) : Option String :=
  if s.toList.contains ':' then
    some (String.mk ((s.toList.reverse.takeWhile fun c => c ≠ ':').reverse))
  else none

/-- The standard SOAP fault-code vocabulary accepted by the switch. -/
def stdFaultSuffix (s : String) : Bool :=
  s = "VersionMismatch" || s = "MustUnderstand" || s = "Client" || s = "Server"

/-- The `prefix` constant of the package ("soapenv"). -/
def soapPfx : String := "soapenv"

structure FaultResult where
  httpStatus : Int
  faultCode : String
  faultString : String
deriving DecidableEq, Repr

/-- `encodeSoapFault`'s status and faultcode/faultstring computation:
HTTP status from `Code()`, else 424 for cancellation, 504 for deadline
exceeded, else 500; faultcode/faultstring from the capability when the
code's after-last-colon segment is standard vocabulary, else the
string is kept and the code synthesized as Client below 500 and Server
at or above. -/
def encodeSoapFault (e : GoError) : FaultResult :=
  let code : Int :=
    match e.code with
    | some c => c
    | none =>
      if e.isCanceled then 424
      else if e.isDeadline then 504
      else 500
  let fcfs : String × String :=
    match e.fault with
    | none => ("", e.msg)
    | some (fc, fs) =>
      let ok :=
        match lastColonSuffix fc with
        | some suf => stdFaultSuffix suf
        | none => false
      (if ok then fc else "", fs)
  let fc :=
    if fcfs.1 = "" then
      if code < 500 then soapPfx ++ ":Client" else soapPfx ++ ":Server"
    else fcfs.1
  { httpStatus := code, faultCode := fc, faultString := fcfs.2 }

/-- `strings.HasSuffix`: does `s` end in `t`? -/
def strEndsIn (s t : String) : Bool :=
  t.toList.isSuffixOf s.toList

/-- C4 counterexample: the error's `FaultCode()` is the bare string
"Client", which ends in `Client`, yet the emitted faultcode is the
synthesized `soapenv:Server` (the code requires a colon before the
vocabulary word; 500 ≥ 500 picks Server). -/
theorem C4_fault_code_counterexample :
    strEndsIn "Client" "Client" = true ∧
    (encodeSoapFault
      { code := none, isCanceled := false, isDeadline := false,
        fault := some ("Client", "boom"), msg := "m" }).faultCode =
      "soapenv:Server" := by
  constructor
  · decide
  · rfl

/-- C4 (amended): the HTTP status is the `Code()` capability when
present, else 424 for cancellation, 504 for deadline exceeded, else
500; the faultcode/faultstring pair is taken from the
`FaultCode()/FaultString()` capability exactly when the fault code
contains a colon and its after-last-colon segment is one of
VersionMismatch, MustUnderstand, Client, Server; in every other case
the faultcode is synthesized as `soapenv:Client` when the status is
below 500 and `soapenv:Server` otherwise (with `FaultString()` still
used for the faultstring when the capability exists). -/
theorem C4_fault_classification (e : GoError) :
    (∀ c, e.code = some c → (encodeSoapFault e).httpStatus = c) ∧
    (e.code = none → e.isCanceled = true → (encodeSoapFault e).httpStatus = 424) ∧
    (e.code = none → e.isCanceled = false → e.isDeadline = true →
      (encodeSoapFault e).httpStatus = 504) ∧
    (e.code = none → e.isCanceled = false → e.isDeadline = false →
      (encodeSoapFault e).httpStatus = 500) ∧
    (∀ fc fs suf, e.fault = some (fc, fs) → lastColonSuffix fc = some suf →
      stdFaultSuffix suf = true →
      (encodeSoapFault e).faultCode = fc ∧ (encodeSoapFault e).faultString = fs) ∧
    ((e.fault = none ∨ ∃ fc fs, e.fault = some (fc, fs) ∧
        (match lastColonSuffix fc with
         | some suf => stdFaultSuffix suf
         | none => false) = false ∧ fc ≠ "") →
      (encodeSoapFault e).faultCode =
        (if (encodeSoapFault e).httpStatus < 500 then soapPfx ++ ":Client"
         else soapPfx ++ ":Server")) := by
  refine ⟨?_, ?_, ?_, ?_, ?_, ?_⟩
  · intro c hc; simp [encodeSoapFault, hc]
  · intro hc hcan; simp [encodeSoapFault, hc, hcan]
  · intro hc hcan hd; simp [encodeSoapFault, hc, hcan, hd]
  · intro hc hcan hd; simp [encodeSoapFault, hc, hcan, hd]
  · intro fc fs suf hf hsuf hstd
    have hok : (match lastColonSuffix fc with
        | some suf => stdFaultSuffix suf
        | none => false) = true := by rw [hsuf]; exact hstd
    have hfc : fc ≠ "" := by
      intro h
      rw [h] at hsuf
      simp [lastColonSuffix] at hsuf
    constructor <;> simp [encodeSoapFault, hf, hok, hfc]
  · rintro (hf | ⟨fc, fs, hf, hok, _⟩)
    · simp [encodeSoapFault, hf]
    · simp [encodeSoapFault, hf, hok]

/-- C4 witness: a backend error carrying `Code() int = 401` and no
fault-code capability yields status 401 and the synthesized
`soapenv:Client` code; one carrying the standard `SOAP-ENV:Server`
code keeps it. -/
theorem C4_fault_witness :
    (encodeSoapFault
      { code := some 401, isCanceled := false, isDeadline := false,
        fault := none, msg := "m" }).httpStatus = 401 ∧
    (encodeSoapFault
      { code := some 401, isCanceled := false, isDeadline := false,
        fault := none, msg := "m" }).faultCode = "soapenv:Client" ∧
    (encodeSoapFault
      { code := none, isCanceled := false, isDeadline := false,
        fault := some ("SOAP-ENV:Server", "s"), msg := "m" }).faultCode =
      "SOAP-ENV:Server" := by
  refine ⟨?_, ?_, ?_⟩
  · exact (C4_fault_classification
      { code := some 401, isCanceled := false, isDeadline := false,
        fault := none, msg := "m" }).1 401 rfl
  · have h := (C4_fault_classification
      { code := some 401, isCanceled := false, isDeadline := false,
        fault := none, msg := "m" }).2.2.2.2.2 (Or.inl rfl)
    rw [h]
    rfl
  · exact ((C4_fault_classification
      { code := none, isCanceled := false, isDeadline := false,
        fault := some ("SOAP-ENV:Server", "s"), msg := "m" }).2.2.2.2.1
      "SOAP-ENV:Server" "s" "Server" rfl rfl rfl).1

/-! ## C8: outbound retrying client timeout precedence
    (src/client.go lines 38-44 and 78-83) -/

/-- `retry.Strategy` fields used by the package (durations in
nanoseconds as Go `time.Duration`). -/
structure RetryStrategy where
  delay : Int
  maxDelay : Int
  maxDuration : Int
  factor : Int
deriving DecidableEq, Repr

/-- The package-level `retryStrategy`: 100ms initial delay, 5s max
delay, 30s max total duration, factor 2. -/
def retryStrategy : RetryStrategy :=
  { delay := 100 * 1000000, maxDelay := 5 * 1000000000,
    maxDuration := 30 * 1000000000, factor := 2 }

def nsPerSecond : Int := 1000000000

/-- The strategy `SOAPCallWithHeaderClient` actually runs with:
`if dl, ok := ctx.Deadline(); ok { if d := time.Until(dl); d >
time.Second { retryStrategy.MaxDuration = d } }`.  `deadlineRemaining`
is `none` when the context carries no deadline. -/
def effectiveRetryStrategy (deadlineRemaining : Option Int) : RetryStrategy :=
  match deadlineRemaining with
  | none => retryStrategy
  | some d =>
    if d > nsPerSecond then { retryStrategy with maxDuration := d }
    else retryStrategy

/-- C8 counterexample: with 5 seconds remaining — less than the 30s
default retry budget — the claim says the default is kept, but the
code replaces `MaxDuration` with the 5 seconds (the actual threshold
is one second, not the default budget). -/
theorem C8_deadline_counterexample :
    (effectiveRetryStrategy (some (5 * 1000000000))).maxDuration =
      5 * 1000000000 ∧
    ¬ (5 * 1000000000 : Int) > retryStrategy.maxDuration := by
  constructor
  · rfl
  · decide

/-- C8 (amended): with an explicit caller deadline, the total retry
duration is replaced by the deadline's remaining duration exactly when
that remaining duration exceeds one second; otherwise (and when there
is no deadline) the default `MaxDuration` of the package strategy is
kept. -/
theorem C8_deadline_precedence (d : Int) :
    (d > nsPerSecond → (effectiveRetryStrategy (some d)).maxDuration = d) ∧
    (¬ d > nsPerSecond →
      (effectiveRetryStrategy (some d)).maxDuration = retryStrategy.maxDuration) ∧
    (effectiveRetryStrategy none).maxDuration = retryStrategy.maxDuration := by
  refine ⟨?_, ?_, rfl⟩
  · intro h
    show (if d > nsPerSecond then { retryStrategy with maxDuration := d }
        else retryStrategy).maxDuration = d
    rw [if_pos h]
  · intro h
    show (if d > nsPerSecond then { retryStrategy with maxDuration := d }
        else retryStrategy).maxDuration = retryStrategy.maxDuration
    rw [if_neg h]

/-- C8 witness: 2 seconds remaining replaces the budget; half a second
does not. -/
theorem C8_deadline_witness :
    (effectiveRetryStrategy (some (2 * 1000000000))).maxDuration =
      2 * 1000000000 ∧
    (effectiveRetryStrategy (some (500 * 1000000))).maxDuration =
      retryStrategy.maxDuration :=
  ⟨(C8_deadline_precedence (2 * 1000000000)).1 (by decide),
   (C8_deadline_precedence (500 * 1000000)).2.1 (by decide)⟩

/-! ## C9: the empty-input decode special case
    (src/unnamed/part_010 lines 1593-1607) -/

/-- The reflected shape of the registered input type (`reflect.TypeOf
(inp).Elem()`): its kind and field count. -/
structure GoType where
  isStruct : Bool
  numFields : Nat
deriving DecidableEq, Repr

inductive DecElemResult where
  | ok
  | errEOF
  | errOther
deriving DecidableEq, Repr

inductive DecOutcome where
  | success
  | wrappedDecodeErr
deriving DecidableEq, Repr

/-- The `dec.DecodeElement` error handling tail of
`soapHandler.DecodeRequest`: no error is success; an error satisfying
`errors.Is(err, io.EOF)` against a zero-field struct target is success
(intentionally empty input); every other error is wrapped with
`errDecode` and returned. -/
def decodeElementOutcome (t : GoType) (r : DecElemResult) : DecOutcome :=
  match r with
  | DecElemResult.ok => DecOutcome.success
  | DecElemResult.errEOF =>
    if t.isStruct && t.numFields == 0 then DecOutcome.success
    else DecOutcome.wrappedDecodeErr
  | DecElemResult.errOther => DecOutcome.wrappedDecodeErr

/-- C9: when the standard element decode reports end-of-file, a
zero-field struct input type makes `DecodeRequest` succeed, while a
struct type with at least one field gets the error wrapped as a
`DecodeError`. -/
theorem C9_empty_input_eof (t : GoType) (h : t.isStruct = true) :
    (t.numFields = 0 →
      decodeElementOutcome t DecElemResult.errEOF = DecOutcome.success) ∧
    (1 ≤ t.numFields →
      decodeElementOutcome t DecElemResult.errEOF = DecOutcome.wrappedDecodeErr) := by
  constructor
  · intro h0; simp [decodeElementOutcome, h, h0]
  · intro h1
    have hb : (t.numFields == 0) = false := by
      cases hnf : t.numFields with
      | zero => rw [hnf] at h1; exact absurd h1 (by decide)
      | succ k => rfl
    simp [decodeElementOutcome, h, hb]

/-- C9 witness: the empty struct succeeds on EOF; a two-field struct
does not. -/
theorem C9_empty_input_witness :
    decodeElementOutcome { isStruct := true, numFields := 0 }
      DecElemResult.errEOF = DecOutcome.success ∧
    decodeElementOutcome { isStruct := true, numFields := 2 }
      DecElemResult.errEOF = DecOutcome.wrappedDecodeErr :=
  ⟨(C9_empty_input_eof { isStruct := true, numFields := 0 } rfl).1 rfl,
   (C9_empty_input_eof { isStruct := true, numFields := 2 } rfl).2 (by decide)⟩

/-! ## C10: failure atomicity of `mayFilterEmptyTags`
    (src/unnamed/part_010 lines 1627-1649)

The raw body bytes are read through `io.TeeReader(r.Body, save)`, so
every byte the filter (and the decoder buffering underneath it)
consumes is also appended to `save`.  `consumed` is the number of body
bytes read before `FilterEmptyTags` returned; `failed` tells whether
it returned an error; `filtered` is its output on success.  The
function rebinds `r.Body` to what the request decoder will
subsequently see. -/
def mayFilterEmptyTagsBody (keepEmptyTags : Bool) (body : List Nat)
    (consumed : Nat) (failed : Bool) (filtered : List Nat) : List Nat :=
  if keepEmptyTags then body
  else if failed then
    -- io.MultiReader(bytes.NewReader(save.Bytes()), r.Body)
    body.take consumed ++ body.drop consumed
  else filtered

/-- C10: when the request does not opt out of empty-tag filtering and
`FilterEmptyTags` fails after consuming any number of body bytes, the
body the request decoder then sees is byte-for-byte the original
request body (tee-saved prefix replayed, then the unread remainder). -/
theorem C10_filter_failure_atomic (keepEmptyTags failed : Bool)
    (body : List Nat) (consumed : Nat) (filtered : List Nat)
    (hk : keepEmptyTags = false) (hf : failed = true) :
    mayFilterEmptyTagsBody keepEmptyTags body consumed failed filtered = body := by
  simp [mayFilterEmptyTagsBody, hk, hf]

/-- C10 witness: a concrete body replayed unchanged after a filter
failure at byte 2. -/
theorem C10_filter_failure_witness :
    mayFilterEmptyTagsBody false [60, 97, 62, 61] 2 true [] = [60, 97, 62, 61] :=
  C10_filter_failure_atomic false true [60, 97, 62, 61] 2 [] rfl rfl

/-! ## C3: the annotation store
    (`NewSOAPHandler` construction, src/unnamed/part_010 lines
    1071-1127, and `soapHandler.annotation`, lines 1612-1625)

The WSDL is modelled as the token stream its one-time scan consumes:
start elements with namespace, local name and attributes, end
elements, and character data.  The embedded JSON documentation blocks
are decoded by a model of Go `encoding/json` unmarshalling into
`map[string]Annotation`, restricted to the JSON grammar those blocks
use: an object of string keys mapping to objects of string keys and
boolean values, with ASCII whitespace and no string escapes; field
names match `Raw`/`RemoveNS` case-insensitively and unknown boolean
fields are ignored, as Go does. -/

/-- The per-action `Annotation` record `{Raw, RemoveNS}`. -/
structure Ann where
  Raw : Bool
  RemoveNS : Bool
deriving DecidableEq, Repr, Inhabited

/-- The zero-value `Annotation`. -/
def annZero : Ann := { Raw := false, RemoveNS := false }

/-- Brace characters, named to keep them out of string literals. -/
def lbrace : Char := Char.ofNat 123

def rbrace : Char := Char.ofNat 125

def isSpaceChar (c : Char) : Bool :=
  c = ' ' || c = '\t' || c = '\n' || c = '\r'

/-- `bytes.TrimSpace` (over the ASCII whitespace the blocks use). -/
def goTrimSpace (s : String) : String :=
  String.mk (((s.toList.dropWhile isSpaceChar).reverse.dropWhile isSpaceChar).reverse)

/-- `strings.TrimSuffix`. -/
def goTrimSuffix (s suf : String) : String :=
  if strEndsIn s suf then
    String.mk (s.toList.take (s.toList.length - suf.toList.length))
  else s

def jsWs (cs : List Char) : List Char :=
  cs.dropWhile isSpaceChar

/-- A JSON string with no escape sequences: a quote, the characters
up to the next quote, the closing quote. -/
def jsString : List Char → Option (String × List Char)
  | '"' :: rest =>
    match rest.dropWhile (fun c => c ≠ '"') with
    | '"' :: rest2 => some (String.mk (rest.takeWhile fun c => c ≠ '"'), rest2)
    | _ => none
  | _ => none

def jsBool : List Char → Option (Bool × List Char)
  | 't' :: 'r' :: 'u' :: 'e' :: rest => some (true, rest)
  | 'f' :: 'a' :: 'l' :: 's' :: 'e' :: rest => some (false, rest)
  | _ => none

/-- Case-insensitive Go json field-name match. -/
def jsFieldIs (k target : String) : Bool :=
  k.toList.map Char.toLower = target.toList

/-- The fields of one inner annotation object, after its opening
brace: `"name": bool` pairs separated by commas, closed by the
brace; `Raw`/`RemoveNS` assign the struct fields (last value wins),
other names are ignored. -/
def jsAnnFields : Nat → Ann → List Char → Option (Ann × List Char)
  | 0, _, _ => none
  | fuel + 1, a, cs =>
    match jsString (jsWs cs) with
    | none => none
    | some (k, cs1) =>
      match jsWs cs1 with
      | ':' :: cs2 =>
        match jsBool (jsWs cs2) with
        | none => none
        | some (v, cs3) =>
          let a :=
            if jsFieldIs k "raw" then { a with Raw := v }
            else if jsFieldIs k "removens" then { a with RemoveNS := v }
            else a
          match jsWs cs3 with
          | ',' :: cs4 => jsAnnFields fuel a cs4
          | d :: cs4 => if d = rbrace then some (a, cs4) else none
          | [] => none
      | _ => none

/-- One inner annotation object, positioned just after its opening
brace (possibly empty). -/
def jsAnnObj (fuel : Nat) (cs : List Char) : Option (Ann × List Char) :=
  match jsWs cs with
  | d :: cs2 => if d = rbrace then some (annZero, cs2) else jsAnnFields fuel annZero cs
  | [] => none

/-- Assoc-list update with overwrite (a Go map assignment). -/
def upsertA (l : List (String × Ann)) (k : String) (v : Ann) :
    List (String × Ann) :=
  if l.any (fun p => p.1 = k) then
    l.map fun p => if p.1 = k then (k, v) else p
  else l ++ [(k, v)]

def lookupA (l : List (String × Ann)) (k : String) : Option Ann :=
  (l.find? fun p => p.1 = k).map Prod.snd

/-- The key/object pairs of the top-level JSON object (after its
opening brace); duplicate keys overwrite, as in a Go map. -/
def jsTopPairs : Nat → List (String × Ann) → List Char →
    Option (List (String × Ann))
  | 0, _, _ => none
  | fuel + 1, acc, cs =>
    match jsString (jsWs cs) with
    | none => none
    | some (k, cs1) =>
      match jsWs cs1 with
      | ':' :: cs2 =>
        match jsWs cs2 with
        | c :: cs3 =>
          if c = lbrace then
            match jsAnnObj fuel cs3 with
            | none => none
            | some (a, cs4) =>
              let acc := upsertA acc k a
              match jsWs cs4 with
              | ',' :: cs5 => jsTopPairs fuel acc cs5
              | d :: _ => if d = rbrace then some acc else none
              | [] => none
          else none
        | [] => none
      | _ => none

/-- `json.NewDecoder(bytes.NewReader(x)).Decode(&m)` for
`m : map[string]Annotation`, on the grammar described above.  The
decoder reads one value; trailing input is not an error. -/
def jsonDocAnnots (s : String) : Option (List (String × Ann)) :=
  match jsWs s.toList with
  | c :: cs1 =>
    if c = lbrace then
      match jsWs cs1 with
      | d :: _ =>
        if d = rbrace then some [] else jsTopPairs (s.length + 1) [] cs1
      | [] => none
    else none
  | [] => none

/-- `for k, v := range m { h.annotations[k] = v }`. -/
def mergeAnnots (tbl m : List (String × Ann)) : List (String × Ann) :=
  m.foldl (fun tbl p => upsertA tbl p.1 p.2) tbl

structure WAttr where
  name : String
  value : String
deriving DecidableEq, Repr

structure WStart where
  space : String
  loc : String
  attrs : List WAttr
deriving DecidableEq, Repr

/-- A token of the WSDL scan: start element, end element, character
data. -/
inductive WTok where
  | ws (s : WStart)
  | we
  | wc (s : String)
deriving DecidableEq, Repr

/-- The scan state of the annotation-construction loop.  `stack` is
the element stack, most recent first (the source appends at the end
and indexes from the top).  `docs` is specification-only ghost state
recording every character-data chunk seen directly under a
`documentation` element; the source does not store it. -/
structure ScanSt where
  stack : List WStart
  names : List String
  annots : List (String × Ann)
  docs : List String
deriving Repr

def addNameSet (names : List String) (n : String) : List String :=
  if n ∈ names then names else names ++ [n]

def xsdNS : String := "http://www.w3.org/2001/XMLSchema"

/-- One iteration of the token loop of `NewSOAPHandler`: an `<any>`
element (XSD or empty namespace) nested exactly inside
`element/complexType/sequence` records the `name` attributes of the
`element`; character data directly under a non-root `documentation`
element that trims to a leading brace is JSON-decoded and merged;
end elements pop the stack. -/
def scanStep (st : ScanSt) (t : WTok) : ScanSt :=
  match t with
  | WTok.ws x =>
    let st :=
      if x.loc = "any" && (x.space = "" || x.space = xsdNS) then
        match st.stack with
        | s1 :: s2 :: s3 :: _ =>
          if s1.loc = "sequence" && s2.loc = "complexType" && s3.loc = "element" then
            let vals := s3.attrs.filterMap fun a =>
              if a.name = "name" then some a.value else none
            { st with names := vals.foldl addNameSet st.names }
          else st
        | _ => st
      else st
    { st with stack := x :: st.stack }
  | WTok.wc s =>
    match st.stack with
    | top :: _ :: _ =>
      if top.loc = "documentation" then
        let st := { st with docs := st.docs ++ [s] }
        let s := goTrimSpace s
        if s.toList.head? = some lbrace then
          match jsonDocAnnots s with
          | some m => { st with annots := mergeAnnots st.annots m }
          | none => st
        else st
      else st
    | _ => st
  | WTok.we => { st with stack := st.stack.tail }

def scanWSDL (wsdl : List WTok) : ScanSt :=
  wsdl.foldl scanStep { stack := [], names := [], annots := [], docs := [] }

/-- `a := h.annotations[k]; a.Raw = true; h.annotations[k] = a`. -/
def setRawA (tbl : List (String × Ann)) (k : String) : List (String × Ann) :=
  let a := (lookupA tbl k).getD annZero
  upsertA tbl k { a with Raw := true }

/-- The full annotation table of `NewSOAPHandler`: the documentation
scan, then for every recorded name `k_Input` whose `k_Output` was also
recorded, the `Raw` flag of action `k` is forced on. -/
def buildAnnots (wsdl : List WTok) : List (String × Ann) :=
  let st := scanWSDL wsdl
  st.names.foldl
    (fun tbl nm =>
      let k := goTrimSuffix nm "_Input"
      if k ≠ nm then
        if (k ++ "_Output") ∈ st.names then setRawA tbl k else tbl
      else tbl)
    st.annots

/-- `strings.LastIndexByte(s, '/')`: the segment after the last
slash, when a slash occurs. -/
def lastSlashSuffix (s : String) : Option String :=
  if s.toList.contains '/' then
    some (String.mk ((s.toList.reverse.takeWhile fun c => c ≠ '/').reverse))
  else none

/-- `soapHandler.annotation`: exact lookup, then the after-last-slash
fallback, never failing (zero value when unknown). -/
def annotLookup (tbl : List (String × Ann)) (action : String) : Ann :=
  match lookupA tbl action with
  | some a => a
  | none =>
    match lastSlashSuffix action with
    | some suf => (lookupA tbl suf).getD annZero
    | none => annZero

theorem find?_map_upsert (k : String) (v : Ann) :
    ∀ tbl : List (String × Ann),
      ((tbl.map fun p => if p.1 = k then (k, v) else p).find? fun p => p.1 = k) =
        if tbl.any (fun p => p.1 = k) then some (k, v) else none := by
  intro tbl
  induction tbl with
  | nil => rfl
  | cons p t ih =>
    by_cases h : p.1 = k
    · have hd : decide (p.1 = k) = true := by simp [h]
      simp [List.map_cons, List.find?_cons, List.any_cons, h, hd]
    · have hd : decide (p.1 = k) = false := by simp [h]
      simp only [List.map_cons, if_neg h, List.find?_cons, hd, List.any_cons,
        Bool.false_or, ih]

theorem lookupA_upsertA_self (tbl : List (String × Ann)) (k : String) (v : Ann) :
    lookupA (upsertA tbl k v) k = some v := by
  unfold upsertA lookupA
  by_cases h : tbl.any (fun p => p.1 = k)
  · rw [if_pos h, find?_map_upsert, if_pos h]
    rfl
  · rw [if_neg h]
    have hnone : (tbl.find? fun p => decide (p.1 = k)) = none := by
      rw [List.find?_eq_none]
      intro p hp hpk
      exact h (List.any_eq_true.mpr ⟨p, hp, hpk⟩)
    rw [List.find?_append, hnone]
    simp [List.find?_cons]

theorem find?_map_upsert_ne (k k' : String) (v : Ann) (hne : k' ≠ k) :
    ∀ tbl : List (String × Ann),
      ((tbl.map fun p => if p.1 = k then (k, v) else p).find? fun p => p.1 = k') =
        tbl.find? fun p => p.1 = k' := by
  have h3 : ¬ k = k' := fun hh => hne hh.symm
  intro tbl
  induction tbl with
  | nil => rfl
  | cons p t ih =>
    by_cases hp : p.1 = k
    · have h1 : ¬ p.1 = k' := by rw [hp]; exact h3
      simp [List.map_cons, List.find?_cons, hp, h1, h3, ih]
    · by_cases h2 : p.1 = k'
      · simp [List.map_cons, List.find?_cons, hp, h2, hne]
      · simp [List.map_cons, List.find?_cons, hp, h2, ih]

theorem lookupA_upsertA_ne (tbl : List (String × Ann)) (k k' : String)
    (v : Ann) (hne : k' ≠ k) :
    lookupA (upsertA tbl k v) k' = lookupA tbl k' := by
  have h3 : ¬ k = k' := fun hh => hne hh.symm
  unfold upsertA lookupA
  by_cases h : tbl.any (fun p => p.1 = k)
  · rw [if_pos h, find?_map_upsert_ne k k' v hne]
  · rw [if_neg h, List.find?_append]
    have h2 : (([(k, v)] : List (String × Ann)).find? fun p => decide (p.1 = k')) = none := by
      simp [List.find?_cons, h3]
    cases hf : tbl.find? fun p => decide (p.1 = k') <;> simp [hf, h2]

/-- "Action `a` is in the table with `Raw` set". -/
def RawTrueAt (tbl : List (String × Ann)) (a : String) : Prop :=
  ∃ w, lookupA tbl a = some w ∧ w.Raw = true

theorem rawTrueAt_setRawA_self (tbl : List (String × Ann)) (k : String) :
    RawTrueAt (setRawA tbl k) k :=
  ⟨_, lookupA_upsertA_self tbl k _, rfl⟩

theorem rawTrueAt_setRawA (tbl : List (String × Ann)) (k a : String)
    (h : RawTrueAt tbl a) : RawTrueAt (setRawA tbl k) a := by
  by_cases hk : a = k
  · subst hk
    exact rawTrueAt_setRawA_self tbl a
  · obtain ⟨w, hw, hr⟩ := h
    refine ⟨w, ?_, hr⟩
    unfold setRawA
    rw [lookupA_upsertA_ne _ _ _ _ hk]
    exact hw

theorem foldl_preserve {α β : Type} (f : β → α → β) (P : β → Prop)
    (hpres : ∀ b a, P b → P (f b a)) :
    ∀ (l : List α) (b), P b → P (l.foldl f b) := by
  intro l
  induction l with
  | nil => intro b h; exact h
  | cons x t ih =>
    intro b h
    rw [List.foldl_cons]
    exact ih (f b x) (hpres b x h)

theorem foldl_establish {α β : Type} (f : β → α → β) (P : β → Prop)
    (hpres : ∀ b a, P b → P (f b a)) (a0 : α) (hest : ∀ b, P (f b a0)) :
    ∀ (l : List α) (b), a0 ∈ l → P (l.foldl f b) := by
  intro l
  induction l with
  | nil => intro b h; cases h
  | cons x t ih =>
    intro b hmem
    rw [List.foldl_cons]
    rcases List.mem_cons.mp hmem with h | h
    · subst h
      exact foldl_preserve f P hpres t _ (hest b)
    · exact ih _ h

theorem strEndsIn_append (x suf : String) : strEndsIn (x ++ suf) suf = true := by
  unfold strEndsIn
  rw [show (x ++ suf).toList = x.toList ++ suf.toList from rfl]
  rw [List.isSuffixOf_iff_suffix]
  exact List.suffix_append x.toList suf.toList

theorem goTrimSuffix_append (x suf : String) :
    goTrimSuffix (x ++ suf) suf = x := by
  unfold goTrimSuffix
  rw [if_pos (by rw [strEndsIn_append])]
  rw [show (x ++ suf).toList = x.toList ++ suf.toList from rfl, List.length_append]
  have h : x.toList.length + suf.toList.length - suf.toList.length =
      x.toList.length := by omega
  rw [h, List.take_left]
  cases x
  rfl

theorem goTrimSuffix_input_ne (x : String) :
    goTrimSuffix (x ++ "_Input") "_Input" ≠ x ++ "_Input" := by
  rw [goTrimSuffix_append]
  intro h
  have hlen := congrArg String.length h
  rw [String.length_append] at hlen
  have h6 : ("_Input" : String).length = 6 := rfl
  omega

/-- C3 (amended): after construction of the annotation table,
(a) if the documentation scan left action `a` mapped Raw-true (in
particular when a JSON block sets `a` Raw-true and no later block
rebinds `a`), then `annotation(a).Raw`;
(b) if `xs:any` wrappers recorded both `x_Input` and `x_Output`, then
`annotation(x).Raw`;
(c) an action absent from the table, also via the after-last-slash
fallback, yields the zero annotation — the lookup never fails. -/
theorem C3_annotation_store (wsdl : List WTok) (a x u : String) (av : Ann)
    (ha1 : lookupA (scanWSDL wsdl).annots a = some av) (ha2 : av.Raw = true)
    (hx1 : (x ++ "_Input") ∈ (scanWSDL wsdl).names)
    (hx2 : (x ++ "_Output") ∈ (scanWSDL wsdl).names)
    (hu1 : lookupA (buildAnnots wsdl) u = none)
    (hu2 : ∀ suf, lastSlashSuffix u = some suf →
      lookupA (buildAnnots wsdl) suf = none) :
    (annotLookup (buildAnnots wsdl) a).Raw = true ∧
    (annotLookup (buildAnnots wsdl) x).Raw = true ∧
    annotLookup (buildAnnots wsdl) u = annZero := by
  have hpres : ∀ (c : String) (tbl : List (String × Ann)) (nm : String),
      RawTrueAt tbl c →
      RawTrueAt
        ((fun tbl nm =>
          let k := goTrimSuffix nm "_Input"
          if k ≠ nm then
            if (k ++ "_Output") ∈ (scanWSDL wsdl).names then setRawA tbl k
            else tbl
          else tbl) tbl nm) c := by
    intro c tbl nm h
    by_cases h1 : goTrimSuffix nm "_Input" ≠ nm
    · by_cases h2 : (goTrimSuffix nm "_Input" ++ "_Output") ∈ (scanWSDL wsdl).names
      · simpa [h1, h2] using rawTrueAt_setRawA tbl _ c h
      · simpa [h1, h2] using h
    · simpa [h1] using h
  have hlook : ∀ (c : String) (tbl : List (String × Ann)), RawTrueAt tbl c →
      (annotLookup tbl c).Raw = true := by
    intro c tbl ⟨w, hw, hr⟩
    unfold annotLookup
    rw [hw]
    exact hr
  have hbuild : buildAnnots wsdl =
      (scanWSDL wsdl).names.foldl
        (fun tbl nm =>
          let k := goTrimSuffix nm "_Input"
          if k ≠ nm then
            if (k ++ "_Output") ∈ (scanWSDL wsdl).names then setRawA tbl k
            else tbl
          else tbl)
        (scanWSDL wsdl).annots := rfl
  refine ⟨?_, ?_, ?_⟩
  · refine hlook a _ ?_
    rw [hbuild]
    exact foldl_preserve _ (fun tbl => RawTrueAt tbl a) (hpres a) _ _ ⟨av, ha1, ha2⟩
  · refine hlook x _ ?_
    rw [hbuild]
    refine foldl_establish _ (fun tbl => RawTrueAt tbl x) (hpres x)
      (x ++ "_Input") ?_ _ _ hx1
    intro tbl
    show RawTrueAt
      (if goTrimSuffix (x ++ "_Input") "_Input" ≠ x ++ "_Input" then
        if (goTrimSuffix (x ++ "_Input") "_Input" ++ "_Output")
            ∈ (scanWSDL wsdl).names then
          setRawA tbl (goTrimSuffix (x ++ "_Input") "_Input")
        else tbl
      else tbl) x
    have hxne : x ≠ x ++ "_Input" := by
      have h := goTrimSuffix_input_ne x
      rwa [goTrimSuffix_append] at h
    rw [goTrimSuffix_append]
    rw [if_pos hxne, if_pos hx2]
    exact rawTrueAt_setRawA_self tbl x
  · unfold annotLookup
    rw [hu1]
    cases hs : lastSlashSuffix u with
    | none => rfl
    | some suf => simp [hu2 suf hs]

def defsStart : WStart := { space := "", loc := "definitions", attrs := [] }

def docStart : WStart := { space := "", loc := "documentation", attrs := [] }

def elemStartNamed (n : String) : WStart :=
  { space := "", loc := "element", attrs := [{ name := "name", value := n }] }

def seqStart : WStart := { space := "", loc := "sequence", attrs := [] }

def cplxStart : WStart := { space := "", loc := "complexType", attrs := [] }

def anyStart : WStart := { space := xsdNS, loc := "any", attrs := [] }

/-- A WSDL with two documentation blocks: the first maps action `A` to
Raw-true, the second re-binds `A` to Raw-false. -/
def wsdlOverride : List WTok :=
  [WTok.ws defsStart,
   WTok.ws docStart, WTok.wc "\x7b\"A\": \x7b\"Raw\": true\x7d\x7d", WTok.we,
   WTok.ws docStart, WTok.wc "\x7b\"A\": \x7b\"Raw\": false\x7d\x7d", WTok.we,
   WTok.we]

/-- C3 counterexample: this WSDL contains a documentation block whose
character data is exactly the JSON object mapping `A` to Raw-true —
the claim's hypothesis — yet `annotation("A").Raw` is false, because a
later documentation block re-bound `A` (later entries overwrite
earlier ones for the same key). -/
theorem C3_doc_override_counterexample :
    "\x7b\"A\": \x7b\"Raw\": true\x7d\x7d" ∈ (scanWSDL wsdlOverride).docs ∧
    (annotLookup (buildAnnots wsdlOverride) "A").Raw = false := by
  constructor
  · decide
  · rfl

/-- A WSDL combining a Raw-true documentation block for `A` with
`xs:any` wrappers recording `X_Input` and `X_Output`; `U` is unknown. -/
def wsdlSample : List WTok :=
  [WTok.ws defsStart,
   WTok.ws docStart, WTok.wc " \x7b\"A\": \x7b\"Raw\": true\x7d\x7d ", WTok.we,
   WTok.ws (elemStartNamed "X_Input"), WTok.ws cplxStart, WTok.ws seqStart,
   WTok.ws anyStart, WTok.we, WTok.we, WTok.we, WTok.we,
   WTok.ws (elemStartNamed "X_Output"), WTok.ws cplxStart, WTok.ws seqStart,
   WTok.ws anyStart, WTok.we, WTok.we, WTok.we, WTok.we,
   WTok.we]

/-- C3 witness: the amended theorem applied to `wsdlSample`. -/
theorem C3_annotation_witness :
    (annotLookup (buildAnnots wsdlSample) "A").Raw = true ∧
    (annotLookup (buildAnnots wsdlSample) "X").Raw = true ∧
    annotLookup (buildAnnots wsdlSample) "U" = annZero := by
  exact C3_annotation_store wsdlSample "A" "X" "U"
    { Raw := true, RemoveNS := false }
    (by rfl) rfl (by decide) (by decide) (by rfl)
    (by
      intro suf hs
      rw [show lastSlashSuffix "U" = none from rfl] at hs
      cases hs)

/-! ## C7: `requestInfo.TrimInput`
    (src/unnamed/part_010 lines 1849-1906)

`TrimInput` drives a Go `encoding/xml` decoder over the raw fragment
and slices the original string by byte offsets (`dec.InputOffset()`).
The decoder is modelled at the character level for the XML subset
these fragments use: plain start tags (a name, optionally followed by
attributes after a space), end tags, and character data; no
self-closing tags, comments, CDATA or entities.  Each operation works
on the remaining input (a suffix of the document); `InputOffset` is
the document length minus the remaining length. -/

inductive GTok where
  | gstart (name : List Char)
  | gend (name : List Char)
  | gtext (s : List Char)
deriving DecidableEq, Repr

/-- The markup cases of one `dec.Token()` step: `r` is the input just
after a `<`; an end tag consumes through the closing `>` and yields
the name, a start tag additionally cuts the name at the first space
(attributes are skipped). -/
def nextTokTag (r : List Char) : Option (GTok × List Char) :=
  match r with
  | [] => none
  | d :: r1 =>
    if d = '/' then
      match r1.dropWhile (fun x => x ≠ '>') with
      | _ :: r2 => some (GTok.gend (r1.takeWhile fun x => x ≠ '>'), r2)
      | [] => none
    else
      match (d :: r1).dropWhile (fun x => x ≠ '>') with
      | _ :: r2 =>
        some (GTok.gstart
          (((d :: r1).takeWhile fun x => x ≠ '>').takeWhile fun x => x ≠ ' '), r2)
      | [] => none

/-- One `dec.Token()` step: returns the token and the remaining
input; `none` is a decode error or end of input (offset unchanged). -/
def nextTok : List Char → Option (GTok × List Char)
  | [] => none
  | c :: r =>
    if c = '<' then nextTokTag r
    else
      some (GTok.gtext (c :: r.takeWhile fun x => x ≠ '<'),
        r.dropWhile fun x => x ≠ '<')

/-- Result of the package's `nextStart`: the first `StartElement`, or
`io.EOF` on an `EndElement` or any decoder error (`err` keeps the
remaining input so `InputOffset` stays faithful). -/
inductive NSRes where
  | ok (name : List Char) (rest : List Char)
  | err (rest : List Char)
deriving DecidableEq, Repr

/-- `nextStart` (src/unnamed/part_010 lines 1756-1770): loop
`dec.Token()` until a start element (returned) or an end element /
error (`io.EOF`). -/
def nextStartM : Nat → List Char → NSRes
  | 0, rest => NSRes.err rest
  | fuel + 1, rest =>
    match nextTok rest with
    | none => NSRes.err rest
    | some (GTok.gstart n, r2) => NSRes.ok n r2
    | some (GTok.gend _, r2) => NSRes.err r2
    | some (GTok.gtext _, r2) => nextStartM fuel r2

/-- Go `xml.Decoder.Skip`: read tokens, tracking depth, until an
unmatched end element or an error; returns the remaining input. -/
def skipM : Nat → Nat → List Char → List Char
  | 0, _, rest => rest
  | fuel + 1, depth, rest =>
    match nextTok rest with
    | none => rest
    | some (GTok.gstart _, r2) => skipM fuel (depth + 1) r2
    | some (GTok.gend _, r2) => if depth = 0 then r2 else skipM fuel (depth - 1) r2
    | some (GTok.gtext _, r2) => skipM fuel depth r2

def endsInInput (n : List Char) : Bool :=
  ("_Input".toList).isSuffixOf n

/-- The `for !strings.HasSuffix(st.Name.Local, "_Input")` loop of
`TrimInput`: repeatedly `nextStart` until a start element whose local
name ends in `_Input` (returning it and the remaining input), or
`none` when `nextStart` errors first (the loop `break`s with a
non-nil `err` and the function returns the input unchanged). -/
def findInputStart : Nat → List Char → Option (List Char × List Char)
  | 0, _ => none
  | fuel + 1, rest =>
    match nextTok rest with
    | none => none
    | some (GTok.gstart n, r2) =>
      if endsInInput n then some (n, r2) else findInputStart fuel r2
    | some (GTok.gend _, _) => none
    | some (GTok.gtext _, r2) => findInputStart fuel r2

def trimSpaceL (cs : List Char) : List Char :=
  ((cs.dropWhile isSpaceChar).reverse.dropWhile isSpaceChar).reverse

/-- `requestInfo.TrimInput`'s returned string: trim space; find the
first `..._Input` start element; record `endPos := dec.InputOffset()`;
`nextStart(dec); dec.Skip()`; return the trim-spaced slice
`rawXML[endPos:dec.InputOffset()]`.  When the search fails the
trimmed input is returned unchanged.  The `RemoveNS` branch of the
source computes only the `Prefix`/`Postfix` splice fields and returns
the same string, so the returned string is independent of the flag
(the claim fixes `RemoveNS` unset). -/
def trimInput (rawXML0 : String) : String :=
  let cs := trimSpaceL rawXML0.toList
  let fuel := cs.length + 1
  match findInputStart fuel cs with
  | none => String.mk cs
  | some (_, rest1) =>
    let endPos := cs.length - rest1.length
    let rest2 :=
      match nextStartM fuel rest1 with
      | NSRes.ok _ r => r
      | NSRes.err r => r
    let rest3 := skipM fuel 0 rest2
    let endOff := cs.length - rest3.length
    String.mk (trimSpaceL ((cs.drop endPos).take (endOff - endPos)))

/-- `<n>content</n>` as a character list. -/
def mkElem (n content : List Char) : List Char :=
  ['<'] ++ n ++ ['>'] ++ content ++ ['<', '/'] ++ n ++ ['>']

/-- A tag name the modelled decoder parses atomically: nonempty,
no markup delimiters, no whitespace. -/
def plainName (n : List Char) : Prop :=
  n ≠ [] ∧ ∀ c ∈ n, c ≠ '<' ∧ c ≠ '>' ∧ c ≠ '/' ∧ c ≠ ' ' ∧ isSpaceChar c = false

instance (n : List Char) : Decidable (plainName n) :=
  inferInstanceAs (Decidable (n ≠ [] ∧ ∀ c ∈ n,
    c ≠ '<' ∧ c ≠ '>' ∧ c ≠ '/' ∧ c ≠ ' ' ∧ isSpaceChar c = false))

theorem takeWhile_append_stop (p : Char → Bool) :
    ∀ (n : List Char) (x : Char) (rest : List Char),
      (∀ c ∈ n, p c = true) → p x = false →
      ((n ++ x :: rest).takeWhile p) = n := by
  intro n
  induction n with
  | nil =>
    intro x rest _ hx
    simp [List.takeWhile_cons, hx]
  | cons a l ih =>
    intro x rest hn hx
    have ha : p a = true := hn a (by simp)
    simp only [List.cons_append, List.takeWhile_cons, ha, if_true]
    rw [ih x rest (fun c hc => hn c (by simp [hc])) hx]

theorem dropWhile_append_stop (p : Char → Bool) :
    ∀ (n : List Char) (x : Char) (rest : List Char),
      (∀ c ∈ n, p c = true) → p x = false →
      ((n ++ x :: rest).dropWhile p) = x :: rest := by
  intro n
  induction n with
  | nil =>
    intro x rest _ hx
    simp [List.dropWhile_cons, hx]
  | cons a l ih =>
    intro x rest hn hx
    have ha : p a = true := hn a (by simp)
    simp only [List.cons_append, List.dropWhile_cons, ha, if_true]
    exact ih x rest (fun c hc => hn c (by simp [hc])) hx

theorem takeWhile_all (p : Char → Bool) :
    ∀ (n : List Char), (∀ c ∈ n, p c = true) → n.takeWhile p = n := by
  intro n
  induction n with
  | nil => intro _; rfl
  | cons a l ih =>
    intro hn
    have ha : p a = true := hn a (by simp)
    simp only [List.takeWhile_cons, ha, if_true]
    rw [ih fun c hc => hn c (by simp [hc])]

theorem nextTok_start (n rest : List Char) (hn : plainName n) :
    nextTok (['<'] ++ n ++ ['>'] ++ rest) = some (GTok.gstart n, rest) := by
  obtain ⟨hne, hall⟩ := hn
  cases n with
  | nil => exact absurd rfl hne
  | cons c n1 =>
    have hc := hall c (by simp)
    have hshape : ['<'] ++ (c :: n1) ++ ['>'] ++ rest =
        '<' :: c :: (n1 ++ '>' :: rest) := by simp
    rw [hshape]
    have hdrop : ((c :: (n1 ++ '>' :: rest)).dropWhile fun x => x ≠ '>') =
        '>' :: rest := by
      show (((c :: n1) ++ '>' :: rest).dropWhile fun x => x ≠ '>') = '>' :: rest
      refine dropWhile_append_stop _ (c :: n1) '>' rest ?_ (by simp)
      intro y hy
      simpa using (hall y hy).2.1
    have htake : ((c :: (n1 ++ '>' :: rest)).takeWhile fun x => x ≠ '>') =
        c :: n1 := by
      show (((c :: n1) ++ '>' :: rest).takeWhile fun x => x ≠ '>') = c :: n1
      refine takeWhile_append_stop _ (c :: n1) '>' rest ?_ (by simp)
      intro y hy
      simpa using (hall y hy).2.1
    have htake2 : ((c :: n1).takeWhile fun x => x ≠ ' ') = c :: n1 := by
      refine takeWhile_all _ (c :: n1) ?_
      intro y hy
      simpa using (hall y hy).2.2.2.1
    simp only [nextTok, if_pos rfl, if_true, nextTokTag, if_neg hc.2.2.1, hdrop,
      htake, htake2]

theorem nextTok_end (n rest : List Char) (hn : plainName n) :
    nextTok (['<', '/'] ++ n ++ ['>'] ++ rest) = some (GTok.gend n, rest) := by
  obtain ⟨_, hall⟩ := hn
  have hshape : ['<', '/'] ++ n ++ ['>'] ++ rest =
      '<' :: '/' :: (n ++ '>' :: rest) := by simp
  rw [hshape]
  have hdrop : ((n ++ '>' :: rest).dropWhile fun x => x ≠ '>') = '>' :: rest := by
    refine dropWhile_append_stop _ n '>' rest ?_ (by simp)
    intro y hy
    simpa using (hall y hy).2.1
  have htake : ((n ++ '>' :: rest).takeWhile fun x => x ≠ '>') = n := by
    refine takeWhile_append_stop _ n '>' rest ?_ (by simp)
    intro y hy
    simpa using (hall y hy).2.1
  simp only [nextTok, if_pos rfl, if_true, nextTokTag, hdrop, htake]

theorem nextTok_text (c : Char) (t rest : List Char) (hc : c ≠ '<')
    (ht : ∀ x ∈ t, x ≠ '<') :
    nextTok ((c :: t) ++ '<' :: rest) = some (GTok.gtext (c :: t), '<' :: rest) := by
  have hshape : (c :: t) ++ '<' :: rest = c :: (t ++ '<' :: rest) := by simp
  rw [hshape]
  have hdrop : ((t ++ '<' :: rest).dropWhile fun x => x ≠ '<') = '<' :: rest := by
    refine dropWhile_append_stop _ t '<' rest ?_ (by simp)
    intro y hy
    simpa using ht y hy
  have htake : ((t ++ '<' :: rest).takeWhile fun x => x ≠ '<') = t := by
    refine takeWhile_append_stop _ t '<' rest ?_ (by simp)
    intro y hy
    simpa using ht y hy
  simp only [nextTok, if_neg hc, hdrop, htake]

theorem mkElem_decomp (n content : List Char) :
    mkElem n content = ['<'] ++ n ++ ['>'] ++ (content ++ ['<', '/'] ++ n ++ ['>']) := by
  simp [mkElem]

theorem trimSpaceL_mkElem (n content : List Char) :
    trimSpaceL (mkElem n content) = mkElem n content := by
  have h1 : mkElem n content =
      '<' :: ((n ++ ['>'] ++ content ++ ['<', '/'] ++ n) ++ ['>']) := by
    simp [mkElem]
  rw [h1]
  unfold trimSpaceL
  rw [List.dropWhile_cons, if_neg (by decide)]
  have h2 : ('<' :: ((n ++ ['>'] ++ content ++ ['<', '/'] ++ n) ++ ['>'])).reverse
      = '>' :: ('<' :: (n ++ ['>'] ++ content ++ ['<', '/'] ++ n)).reverse := by
    simp
  rw [h2, List.dropWhile_cons, if_neg (by decide)]
  simp

theorem nextStartM_start (fuel : Nat) (n rest : List Char)
    (hn : plainName n) (hf : 1 ≤ fuel) :
    nextStartM fuel (['<'] ++ n ++ ['>'] ++ rest) = NSRes.ok n rest := by
  obtain ⟨f, rfl⟩ : ∃ f, fuel = f + 1 := ⟨fuel - 1, by omega⟩
  simp only [nextStartM, nextTok_start n rest hn]

theorem skipM_content_end (fuel : Nat) (t n rest : List Char)
    (hn : plainName n) (ht : ∀ x ∈ t, x ≠ '<') (hf : 2 ≤ fuel) :
    skipM fuel 0 (t ++ ['<', '/'] ++ n ++ ['>'] ++ rest) = rest := by
  obtain ⟨f, rfl⟩ : ∃ f, fuel = f + 1 := ⟨fuel - 1, by omega⟩
  cases t with
  | nil =>
    have hshape : ([] : List Char) ++ ['<', '/'] ++ n ++ ['>'] ++ rest =
        ['<', '/'] ++ n ++ ['>'] ++ rest := by simp
    rw [hshape]
    simp only [skipM, nextTok_end n rest hn, if_pos rfl, if_true]
  | cons c t1 =>
    have hc : c ≠ '<' := ht c (by simp)
    have ht1 : ∀ x ∈ t1, x ≠ '<' := fun x hx => ht x (by simp [hx])
    have hshape : (c :: t1) ++ ['<', '/'] ++ n ++ ['>'] ++ rest =
        (c :: t1) ++ '<' :: ('/' :: (n ++ '>' :: rest)) := by simp
    rw [hshape]
    obtain ⟨g, rfl⟩ : ∃ g, f = g + 1 := ⟨f - 1, by omega⟩
    simp only [skipM, nextTok_text c t1 _ hc ht1]
    have hshape2 : '<' :: ('/' :: (n ++ '>' :: rest)) =
        ['<', '/'] ++ n ++ ['>'] ++ rest := by simp
    rw [hshape2]
    simp only [skipM, nextTok_end n rest hn, if_pos rfl, if_true]

theorem findInputStart_found (fuel : Nat) (n rest : List Char)
    (hn : plainName n) (hi : endsInInput n = true) (hf : 1 ≤ fuel) :
    findInputStart fuel (['<'] ++ n ++ ['>'] ++ rest) = some (n, rest) := by
  obtain ⟨f, rfl⟩ : ∃ f, fuel = f + 1 := ⟨fuel - 1, by omega⟩
  simp only [findInputStart, nextTok_start n rest hn, hi, if_true]

theorem findInputStart_no_input (fuel : Nat) (n t : List Char)
    (hn : plainName n) (hni : endsInInput n = false) (ht : ∀ x ∈ t, x ≠ '<') :
    findInputStart fuel (mkElem n t) = none := by
  cases fuel with
  | zero => rfl
  | succ f =>
    rw [mkElem_decomp]
    simp only [findInputStart, nextTok_start n _ hn, hni, if_false, Bool.false_eq_true]
    cases t with
    | nil =>
      have hshape : ([] : List Char) ++ ['<', '/'] ++ n ++ ['>'] ++ ([] : List Char) =
          ['<', '/'] ++ n ++ ['>'] ++ ([] : List Char) := by simp
      rw [show ([] : List Char) ++ ['<', '/'] ++ n ++ ['>'] =
          ['<', '/'] ++ n ++ ['>'] ++ ([] : List Char) from by simp]
      cases f with
      | zero => rfl
      | succ g => simp only [findInputStart, nextTok_end n [] hn]
    | cons c t1 =>
      have hc : c ≠ '<' := ht c (by simp)
      have ht1 : ∀ x ∈ t1, x ≠ '<' := fun x hx => ht x (by simp [hx])
      rw [show (c :: t1) ++ ['<', '/'] ++ n ++ ['>'] =
          (c :: t1) ++ '<' :: ('/' :: (n ++ '>' :: ([] : List Char))) from by simp]
      cases f with
      | zero => rfl
      | succ g =>
        simp only [findInputStart, nextTok_text c t1 _ hc ht1]
        rw [show '<' :: ('/' :: (n ++ '>' :: ([] : List Char))) =
            ['<', '/'] ++ n ++ ['>'] ++ ([] : List Char) from by simp]
        cases g with
        | zero => rfl
        | succ g2 => simp only [findInputStart, nextTok_end n [] hn]

theorem slice_segment (pre seg post : List Char) :
    (((pre ++ seg ++ post).drop
        ((pre ++ seg ++ post).length - (seg ++ post).length)).take
      (((pre ++ seg ++ post).length - post.length) -
        ((pre ++ seg ++ post).length - (seg ++ post).length))) = seg := by
  have h1 : (pre ++ seg ++ post).length - (seg ++ post).length = pre.length := by
    simp only [List.length_append]
    omega
  have h2 : ((pre ++ seg ++ post).length - post.length) - pre.length = seg.length := by
    simp only [List.length_append]
    omega
  rw [h1, h2]
  rw [show pre ++ seg ++ post = pre ++ (seg ++ post) from by simp]
  rw [List.drop_left, List.take_left]

theorem trimInput_family (w c t : List Char)
    (hw : plainName w) (hc : plainName c)
    (hwi : endsInInput w = true)
    (ht : ∀ x ∈ t, x ≠ '<') :
    trimInput (String.mk (mkElem w (mkElem c t))) = String.mk (mkElem c t) := by
  have e1 : (String.mk (mkElem w (mkElem c t))).toList = mkElem w (mkElem c t) := rfl
  have hfis : findInputStart ((mkElem w (mkElem c t)).length + 1)
      (mkElem w (mkElem c t))
      = some (w, mkElem c t ++ ['<', '/'] ++ w ++ ['>']) := by
    conv_lhs => rw [mkElem_decomp w (mkElem c t)]
    rw [findInputStart_found _ w _ hw hwi (by omega)]
  have e2 : mkElem c t ++ ['<', '/'] ++ w ++ ['>'] =
      ['<'] ++ c ++ ['>'] ++
        (t ++ ['<', '/'] ++ c ++ ['>'] ++ (['<', '/'] ++ w ++ ['>'])) := by
    simp [mkElem, List.append_assoc]
  have hns : nextStartM ((mkElem w (mkElem c t)).length + 1)
      (mkElem c t ++ ['<', '/'] ++ w ++ ['>'])
      = NSRes.ok c
          (t ++ ['<', '/'] ++ c ++ ['>'] ++ (['<', '/'] ++ w ++ ['>'])) := by
    rw [e2]
    exact nextStartM_start _ c _ hc (by omega)
  have hsk : skipM ((mkElem w (mkElem c t)).length + 1) 0
      (t ++ ['<', '/'] ++ c ++ ['>'] ++ (['<', '/'] ++ w ++ ['>']))
      = ['<', '/'] ++ w ++ ['>'] := by
    refine skipM_content_end _ t c _ hc ht ?_
    have : 1 ≤ (mkElem w (mkElem c t)).length := by
      simp [mkElem, List.length_append]
    omega
  simp only [trimInput, e1, trimSpaceL_mkElem, hfis, hns, hsk]
  have hdecomp : mkElem w (mkElem c t) =
      (['<'] ++ w ++ ['>']) ++ mkElem c t ++ (['<', '/'] ++ w ++ ['>']) := by
    simp [mkElem, List.append_assoc]
  have hrest1 : mkElem c t ++ ['<', '/'] ++ w ++ ['>'] =
      mkElem c t ++ (['<', '/'] ++ w ++ ['>']) := by
    simp [List.append_assoc]
  rw [hdecomp, hrest1]
  rw [slice_segment (['<'] ++ w ++ ['>']) (mkElem c t) (['<', '/'] ++ w ++ ['>'])]
  rw [trimSpaceL_mkElem]

/-- A fragment whose leading elements never have an `_Input`-suffixed
name passes through `TrimInput` unchanged (the search loop hits the
first end element and `err != nil` skips the slicing). -/
theorem trimInput_no_input (n t : List Char)
    (hn : plainName n) (hni : endsInInput n = false) (ht : ∀ x ∈ t, x ≠ '<') :
    trimInput (String.mk (mkElem n t)) = String.mk (mkElem n t) := by
  have e1 : (String.mk (mkElem n t)).toList = mkElem n t := rfl
  simp only [trimInput, e1, trimSpaceL_mkElem,
    findInputStart_no_input _ n t hn hni ht]

theorem C7_trim_not_idempotent_counterexample :
    trimInput (trimInput "<X_Input><Y_Input>z</Y_Input></X_Input>") ≠
      trimInput "<X_Input><Y_Input>z</Y_Input></X_Input>" := by
  decide

/-- C7: `TrimInput` strips a single `*_Input` wrapper element, returning
the trimmed contents of the first element whose local name ends in
`_Input`. On the canonical shape `<W_Input><C>t</C></W_Input>` — where
`W_Input` and `C` are plain names, `C` does not itself end in `_Input`,
and the payload `t` holds no markup — one pass yields `<C>t</C>`, and a
second pass leaves that output unchanged, so `TrimInput` is idempotent
on this family. (Unrestricted idempotence fails: see the counterexample
where the inner name also ends in `_Input`.) -/
theorem C7_trim_input_strips_wrapper (w c t : List Char)
    (hw : plainName w) (hc : plainName c)
    (hwi : endsInInput w = true) (hci : endsInInput c = false)
    (ht : ∀ x ∈ t, x ≠ '<') :
    trimInput (String.mk (mkElem w (mkElem c t))) = String.mk (mkElem c t) ∧
    trimInput (trimInput (String.mk (mkElem w (mkElem c t)))) =
      trimInput (String.mk (mkElem w (mkElem c t))) := by
  have h1 := trimInput_family w c t hw hc hwi ht
  refine ⟨h1, ?_⟩
  rw [h1, trimInput_no_input c t hc hci ht]

theorem C7_trim_witness :
    trimInput (String.mk (mkElem "X_Input".toList (mkElem "Data".toList "hi".toList)))
        = String.mk (mkElem "Data".toList "hi".toList) ∧
    trimInput (trimInput (String.mk (mkElem "X_Input".toList
        (mkElem "Data".toList "hi".toList))))
      = trimInput (String.mk (mkElem "X_Input".toList
          (mkElem "Data".toList "hi".toList))) :=
  C7_trim_input_strips_wrapper "X_Input".toList "Data".toList "hi".toList
    (by decide) (by decide) (by decide) (by decide) (by decide)

end Soapproxy
